import Mathlib

/-!
# NovoLang core: values, scopes and the AST executor

A shallow embedding of `scope.h` / `scope.cpp` / `ast_exec.cpp`.

* `Value` is the tagged union of `scope.h`.
* `Scope` objects live in a heap (`Heap`), addressed by index; a
  `std::shared_ptr<Scope>` is an address, `make_shared<Scope>(p)` appends a
  frame to the heap.  Frames are never removed from the heap: a frame whose
  last owner is gone simply stays unreachable.
* The member functions that recurse through `parent` take a recursion budget
  (`fuel`); running out of budget is the outcome `outOfFuel`, distinct from
  a C++ exception.
* A `NUMBER` node holds the `double` that `cast<double>()` yields; the node for
  an integer `n` is `intLiteral n`, whose value is the double nearest to `n`.
* The division `LONG_MIN / -1`, which the source does not guard, is the
  outcome `trapped`: the process is stopped and no `catch` runs.
-/

namespace NovoLang

/-! ## Machine integers and doubles -/

/-- Two's complement wrap-around of a mathematical integer into `long`. -/
def wrap64 (x : Int) : Int := (x + 2 ^ 63) % 2 ^ 64 - 2 ^ 63

/-- The range of `long`. -/
def inLong (x : Int) : Prop := -(2 ^ 63) ≤ x ∧ x < 2 ^ 63

instance (x : Int) : Decidable (inLong x) := by unfold inLong; infer_instance

/-- A C++ `double`: a finite value (held exactly, as a rational), an infinity
(`neg` is the sign) or a NaN.  Only the rationals with a 53-bit significand
are values of doubles; the literal that stands for an integer is built by
`intLiteral`, which rounds as the conversion to `double` does. -/
inductive Dbl where
  | fin (q : ℚ)
  | inf (neg : Bool)
  | nan
  deriving DecidableEq

/-- The conversion `(long)d`.  A finite `d` is truncated toward zero; when the
truncation does not fit in `long` (and for infinities and NaN) the result is
`LONG_MIN`, the value the x86-64 conversion instruction produces. -/
def castLong : Dbl → Int
  | .fin q => if inLong (Int.tdiv q.num q.den) then Int.tdiv q.num q.den else -(2 ^ 63)
  | _ => -(2 ^ 63)

/-- The comparison `d == (long)d`: the `long` is converted back to `double`
and compared; a NaN or an infinity is equal to no `long`. -/
def eqCastLong : Dbl → Bool
  | .fin q => decide (q = ((castLong (.fin q) : Int) : ℚ))
  | _ => false

/-- The number of low bits an integer magnitude has beyond 53 bits (the first
argument bounds the recursion). -/
def excessBits : Nat → Nat → Nat
  | 0, _ => 0
  | fuel + 1, a => if a < 2 ^ 53 then 0 else excessBits fuel (a / 2) + 1

/-- The value of the double nearest to the integer `n`, ties to the even
significand: what `cast<double>()` gives for a Python int of a magnitude a
double can hold (below `2^1024`, so that at most 1100 halvings are needed). -/
def nearestDouble (n : Int) : Int :=
  let a := n.natAbs
  let s := excessBits 1100 a
  let m := a / 2 ^ s
  let r := a % 2 ^ s
  let m1 := if 2 * r < 2 ^ s then m else if 2 ^ s < 2 * r then m + 1
    else if m % 2 = 0 then m else m + 1
  if n < 0 then -((m1 * 2 ^ s : Nat) : Int) else ((m1 * 2 ^ s : Nat) : Int)

/-! ## Value (scope.h) -/

/-- The struct `Value`: the tag and the active alternative of the variant. -/
inductive Value where
  | LONG (v : Int)
  | DOUBLE (v : Dbl)
  | STRING (v : String)
  | BOOL (v : Bool)
  | NONE
  deriving DecidableEq

/-- Six digits after the decimal point, left-padded with zeros. -/
def sixDigits (n : Nat) : String :=
  let s := toString n
  String.mk (List.replicate (6 - s.length) '0') ++ s

/-- The call `std::to_string(double)`, that is the format `%f`: the exact value
rounded to six decimals, ties to even. -/
def doubleToString : Dbl → String
  | .nan => "nan"
  | .inf neg => if neg then "-inf" else "inf"
  | .fin q =>
    let a : ℚ := |q| * 1000000
    let fl : Nat := (a.num / a.den).toNat
    let twice : Int := 2 * (a.num % a.den)
    let n : Nat :=
      if twice < a.den then fl
      else if a.den < twice then fl + 1
      else if fl % 2 = 0 then fl else fl + 1
    (if q < 0 then "-" else "") ++ toString (n / 1000000) ++ "." ++ sixDigits (n % 1000000)

/-- The member `Value::toString`. -/
def Value.toString : Value → String
  | .LONG v => ToString.toString v
  | .DOUBLE v => doubleToString v
  | .STRING v => v
  | .BOOL v => if v then "真" else "假"
  | .NONE => "空"

/-! ## Scope (scope.h, scope.cpp) -/

/-- The member `variables`: an association list with unique keys stands for
the `unordered_map`. -/
abbrev Vars := List (String × Value)

/-- The call `variables.find(name)`; `none` is `variables.end()`. -/
def Vars.find (name : String) : Vars → Option Value
  | [] => none
  | (k, v) :: rest => if k = name then some v else Vars.find name rest

/-- The statement `variables[name] = value`: overwrite the entry of `name`, or
insert one. -/
def Vars.set (name : String) (value : Value) : Vars → Vars
  | [] => [(name, value)]
  | (k, v) :: rest =>
    if k = name then (k, value) :: rest else (k, v) :: Vars.set name value rest

/-- The names a map holds. -/
def Vars.names (vars : Vars) : List String := vars.map Prod.fst

/-- One `Scope` object: its member `variables` (here `vars`, the source's name
being a reserved word) and the address of its parent. -/
structure Scope where
  vars : Vars
  parent : Option Nat
  deriving DecidableEq

/-- The heap of `Scope` objects; an address is an index. -/
abbrev Heap := List Scope

/-- Outcome of a call that may throw: it returned, it threw (`what` is the
exception's message), the recursion budget was used up, or the process was
stopped by a hardware trap (`trapped`: the overflowing division, which no
`catch` sees).  The state at the moment of the return or of the throw is
kept. -/
inductive Run (σ : Type) where
  | done (s : σ)
  | thrown (what : String) (s : σ)
  | outOfFuel
  | trapped
  deriving DecidableEq

/-- Outcome of a call that returns a value and leaves the state alone. -/
inductive Eval (α : Type) where
  | ok (a : α)
  | thrown (what : String)
  | outOfFuel
  | trapped
  deriving DecidableEq

/-- The message of the `std::runtime_error` of `Scope::assign` and `Scope::get`. -/
def undefinedVariable (name : String) : String :=
  "错误：变量 " ++ String.singleton (Char.ofNat 39) ++ name ++ String.singleton (Char.ofNat 39) ++ " 未定义"

/-- The member `Scope::existsLocal`, on the frame at address `self`. -/
def Scope.existsLocal (h : Heap) (self : Nat) (name : String) : Bool :=
  match h[self]? with
  | some sc => (Vars.find name sc.vars).isSome
  | none => false

/-- The member `Scope::define`, on the frame at address `self`. -/
def Scope.define (h : Heap) (self : Nat) (name : String) (value : Value) : Heap :=
  match h[self]? with
  | some sc => h.set self { sc with vars := Vars.set name value sc.vars }
  | none => h

/-- The member `Scope::assign`, on the frame at address `self`.  An address
outside the heap, which no `shared_ptr` of the program holds, is answered by a
throw that leaves the heap alone. -/
def Scope.assign : Nat → Heap → Nat → String → Value → Run Heap
  | 0, _, _, _, _ => .outOfFuel
  | fuel + 1, h, self, name, value =>
    match h[self]? with
    | none => .thrown "null Scope" h
    | some sc =>
      if (Vars.find name sc.vars).isSome then
        .done (h.set self { sc with vars := Vars.set name value sc.vars })
      else
        match sc.parent with
        | some p => Scope.assign fuel h p name value
        | none => .thrown (undefinedVariable name) h

/-- The member `Scope::get`, on the frame at address `self`.  An address
outside the heap, which no `shared_ptr` of the program holds, is answered by a
throw. -/
def Scope.get : Nat → Heap → Nat → String → Eval Value
  | 0, _, _, _ => .outOfFuel
  | fuel + 1, h, self, name =>
    match h[self]? with
    | none => .thrown "null Scope"
    | some sc =>
      match Vars.find name sc.vars with
      | some v => .ok v
      | none =>
        match sc.parent with
        | some p => Scope.get fuel h p name
        | none => .thrown (undefinedVariable name)

/-- The frames of an Environment chain: `IsChain h self l` says that `l` lists
the addresses met from `self` outward through `parent`, ending at a frame
without parent. -/
inductive IsChain (h : Heap) : Nat → List Nat → Prop where
  | root (a : Nat) (sc : Scope) (ha : h[a]? = some sc) (hp : sc.parent = none) :
      IsChain h a [a]
  | step (a p : Nat) (sc : Scope) (l : List Nat) (ha : h[a]? = some sc)
      (hp : sc.parent = some p) (hl : IsChain h p l) : IsChain h a (a :: l)

/-! ## AST nodes

The AST is the nested dictionary of the wire contract.  Each node kind has the
keys the executor reads for it; `OTHER type` is a node that has a `"type"` key
and none of the other keys. -/

/-- An expression node. -/
inductive Expr where
  | NUMBER (value : Dbl)
  | STRING (value : String)
  | BOOL (value : Bool)
  | NULL
  | IDENTIFIER (name : String)
  | BINARY_OP (left : Expr) (op : String) (right : Expr)
  | OTHER (type : String)

/-- A statement node. -/
inductive Stmt where
  | BLOCK (statements : List Stmt)
  | IF (condition : Expr) (body : Stmt) (else_body : Option Stmt)
  | LOOP (condition : Expr) (body : Stmt)
  | PRINT (expr : Expr)
  | ASSIGNMENT (target : String) (value : Expr)
  | AUTO_CALL (function : String) (args : List Expr)
  | OTHER (type : String)

/-- The node `NUMBER{n}` for an integer `n`, as `evalExpr` reads it: its value
is the double nearest to `n`. -/
def intLiteral (n : Int) : Expr := .NUMBER (.fin ((nearestDouble n : Int) : ℚ))

/-- The message of the error raised by `node[key]` when the key is missing. -/
def keyError (key : String) : String := "KeyError: " ++ key

/-! ## ASTExecutor (ast_exec.h, ast_exec.cpp) -/

/-- The evaluator object together with what it acts on: the heap of scopes,
the lines written to `std::cout` and `std::cerr`, and the calls made to the
Python dispatcher. -/
structure ASTExecutor where
  globalScope : Nat
  currentScope : Nat
  heap : Heap
  out : List String
  err : List String
  calls : List (String × List Value)
  deriving DecidableEq

/-- The constructor `ASTExecutor::ASTExecutor`. -/
def ASTExecutor.new : ASTExecutor :=
  { globalScope := 0, currentScope := 0, heap := [⟨[], none⟩], out := [], err := [], calls := [] }

/-- The Python call `AutoAPI().execute(name, args)`: `none` when it returns,
`some what` when it raises. -/
abbrev Dispatcher := String → List Value → Option String

/-- The body of `ASTExecutor::evalBinOp` once both operands are evaluated.
Sums, differences and products wrap around.  The division `l / r` is guarded
for `r == 0` only: `LONG_MIN / -1` overflows, and the division instruction
traps. -/
def evalBinOp (left : Value) (op : String) (right : Value) : Eval Value :=
  match left, right with
  | .LONG l, .LONG r =>
    if op = "+" then .ok (.LONG (wrap64 (l + r)))
    else if op = "-" then .ok (.LONG (wrap64 (l - r)))
    else if op = "*" then .ok (.LONG (wrap64 (l * r)))
    else if op = "/" then
      if r = 0 then .ok (.LONG 0)
      else if l = -(2 ^ 63) ∧ r = -1 then .trapped
      else .ok (.LONG (wrap64 (Int.tdiv l r)))
    else if op = ">" then .ok (.BOOL (decide (l > r)))
    else if op = "<" then .ok (.BOOL (decide (l < r)))
    else if op = "==" then .ok (.BOOL (decide (l = r)))
    else .ok .NONE
  | _, _ => .ok .NONE

/-- The member `ASTExecutor::evalExpr` (with `evalBinOp` for a `BINARY_OP`),
in the heap `h` with current scope `cur`. -/
def evalExpr (fuel : Nat) (h : Heap) (cur : Nat) : Expr → Eval Value
  | .NUMBER d => if eqCastLong d then .ok (.LONG (castLong d)) else .ok (.DOUBLE d)
  | .STRING s => .ok (.STRING s)
  | .BOOL b => .ok (.BOOL b)
  | .NULL => .ok .NONE
  | .IDENTIFIER name => Scope.get fuel h cur name
  | .BINARY_OP left op right =>
    match evalExpr fuel h cur left with
    | .ok l =>
      match evalExpr fuel h cur right with
      | .ok r => evalBinOp l op r
      | e => e
    | e => e
  | .OTHER type =>
    if type = "NUMBER" then .thrown (keyError "value")
    else if type = "STRING" then .thrown (keyError "value")
    else if type = "BOOL" then .thrown (keyError "value")
    else if type = "NULL" then .ok .NONE
    else if type = "IDENTIFIER" then .thrown (keyError "name")
    else if type = "BINARY_OP" then .thrown (keyError "left")
    else .ok .NONE

/-- The truth test of `execIf` and `execLoop`:
`isTrue = false; if (cond.type == BOOL) isTrue = get<bool>(cond.data)`. -/
def isTrue : Value → Bool
  | .BOOL b => b
  | _ => false

/-- The call `IO::print`. -/
def IO_print (msg : String) (st : ASTExecutor) : ASTExecutor :=
  { st with out := st.out ++ [msg] }

/-- The member `ASTExecutor::execPrint`. -/
def execPrint (fuel : Nat) (expr : Expr) (st : ASTExecutor) : Run ASTExecutor :=
  match evalExpr fuel st.heap st.currentScope expr with
  | .ok val => .done (IO_print val.toString st)
  | .thrown what => .thrown what st
  | .outOfFuel => .outOfFuel
  | .trapped => .trapped

/-- The member `ASTExecutor::execAssign`. -/
def execAssign (fuel : Nat) (name : String) (value : Expr) (st : ASTExecutor) :
    Run ASTExecutor :=
  match evalExpr fuel st.heap st.currentScope value with
  | .ok val =>
    if Scope.existsLocal st.heap st.currentScope name then
      match Scope.assign fuel st.heap st.currentScope name val with
      | .done h => .done { st with heap := h }
      | .thrown what h => .thrown what { st with heap := h }
      | .outOfFuel => .outOfFuel
      | .trapped => .trapped
    else
      match Scope.assign fuel st.heap st.currentScope name val with
      | .done h => .done { st with heap := h }
      | .thrown _ h => .done { st with heap := Scope.define h st.currentScope name val }
      | .outOfFuel => .outOfFuel
      | .trapped => .trapped
  | .thrown what => .thrown what st
  | .outOfFuel => .outOfFuel
  | .trapped => .trapped

/-- The argument loop of `execAuto`. -/
def evalArgs (fuel : Nat) (h : Heap) (cur : Nat) : List Expr → Eval (List Value)
  | [] => .ok []
  | arg :: rest =>
    match evalExpr fuel h cur arg with
    | .ok v =>
      match evalArgs fuel h cur rest with
      | .ok vs => .ok (v :: vs)
      | e => e
    | .thrown what => .thrown what
    | .outOfFuel => .outOfFuel
    | .trapped => .trapped

/-- The member `ASTExecutor::execAuto`. -/
def execAuto (invoke : Dispatcher) (fuel : Nat) (funcName : String) (argsAst : List Expr)
    (st : ASTExecutor) : Run ASTExecutor :=
  match evalArgs fuel st.heap st.currentScope argsAst with
  | .ok args =>
    let st1 := { st with calls := st.calls ++ [(funcName, args)] }
    match invoke funcName args with
    | none => .done st1
    | some what => .done { st1 with err := st1.err ++ ["Python Error: " ++ what] }
  | .thrown what => .thrown what st
  | .outOfFuel => .outOfFuel
  | .trapped => .trapped

/-- The statement `currentScope = std::make_shared<Scope>(oldScope)`. -/
def pushScope (st : ASTExecutor) : ASTExecutor :=
  { st with heap := st.heap ++ [⟨[], some st.currentScope⟩], currentScope := st.heap.length }

/-- The statement `currentScope = oldScope`, reached when the body returned. -/
def restoreScope (oldScope : Nat) : Run ASTExecutor → Run ASTExecutor
  | .done st => .done { st with currentScope := oldScope }
  | r => r

mutual

/-- The member `ASTExecutor::execBlock`. -/
def execBlock (invoke : Dispatcher) : Nat → List Stmt → ASTExecutor → Run ASTExecutor
  | 0, _, _ => .outOfFuel
  | _ + 1, [], st => .done st
  | fuel + 1, item :: rest, st =>
    match execStmt invoke fuel item st with
    | .done st1 => execBlock invoke fuel rest st1
    | r => r

/-- The member `ASTExecutor::execStmt`. -/
def execStmt (invoke : Dispatcher) : Nat → Stmt → ASTExecutor → Run ASTExecutor
  | 0, _, _ => .outOfFuel
  | fuel + 1, stmt, st =>
    match stmt with
    | .IF condition body else_body => execIf invoke fuel condition body else_body st
    | .LOOP condition body => execLoop invoke fuel condition body st
    | .PRINT expr => execPrint fuel expr st
    | .ASSIGNMENT target value => execAssign fuel target value st
    | .AUTO_CALL function args => execAuto invoke fuel function args st
    | .BLOCK statements =>
      let oldScope := st.currentScope
      restoreScope oldScope (execBlock invoke fuel statements (pushScope st))
    | .OTHER type =>
      if type = "IF" then .thrown (keyError "condition") st
      else if type = "LOOP" then .thrown (keyError "condition") st
      else if type = "PRINT" then .thrown (keyError "expr") st
      else if type = "ASSIGNMENT" then .thrown (keyError "target") st
      else if type = "AUTO_CALL" then .thrown (keyError "function") st
      else if type = "BLOCK" then .thrown (keyError "statements") (pushScope st)
      else .done st

/-- The scoped body of `execIf` and `execLoop`: a new scope, the body (its
statements when it is a `BLOCK`, else the statement itself), the old scope. -/
def execBody (invoke : Dispatcher) : Nat → Stmt → ASTExecutor → Run ASTExecutor
  | 0, _, _ => .outOfFuel
  | fuel + 1, body, st =>
    let oldScope := st.currentScope
    match body with
    | .BLOCK statements =>
      restoreScope oldScope (execBlock invoke fuel statements (pushScope st))
    | .OTHER type =>
      if type = "BLOCK" then .thrown (keyError "statements") (pushScope st)
      else restoreScope oldScope (execStmt invoke fuel body (pushScope st))
    | _ => restoreScope oldScope (execStmt invoke fuel body (pushScope st))

/-- The member `ASTExecutor::execIf`. -/
def execIf (invoke : Dispatcher) :
    Nat → Expr → Stmt → Option Stmt → ASTExecutor → Run ASTExecutor
  | 0, _, _, _, _ => .outOfFuel
  | fuel + 1, condition, body, else_body, st =>
    match evalExpr fuel st.heap st.currentScope condition with
    | .ok cond =>
      if isTrue cond then execBody invoke fuel body st
      else
        match else_body with
        | some elseBody => execBody invoke fuel elseBody st
        | none => .done st
    | .thrown what => .thrown what st
    | .outOfFuel => .outOfFuel
    | .trapped => .trapped

/-- The member `ASTExecutor::execLoop`. -/
def execLoop (invoke : Dispatcher) : Nat → Expr → Stmt → ASTExecutor → Run ASTExecutor
  | 0, _, _, _ => .outOfFuel
  | fuel + 1, condition, body, st =>
    match evalExpr fuel st.heap st.currentScope condition with
    | .ok cond =>
      if isTrue cond then
        match execBody invoke fuel body st with
        | .done st1 => execLoop invoke fuel condition body st1
        | r => r
      else .done st
    | .thrown what => .thrown what st
    | .outOfFuel => .outOfFuel
    | .trapped => .trapped

end

/-- The member `ASTExecutor::execute`. -/
def execute (invoke : Dispatcher) (fuel : Nat) (ast : Stmt) (st : ASTExecutor) :
    Run ASTExecutor :=
  let r : Run ASTExecutor :=
    match ast with
    | .BLOCK statements => execBlock invoke fuel statements st
    | .OTHER type => if type = "BLOCK" then .thrown (keyError "statements") st else .done st
    | _ => .done st
  match r with
  | .thrown what s => .done { s with err := s.err ++ ["Runtime Error: " ++ what] }
  | r => r

/-! ## Sample states -/

/-- A chain of three frames: frame 2 (empty) inside frame 1 (holds `x = 1`)
inside the root frame 0 (holds `x = 0`). -/
def heap3 : Heap :=
  [⟨[("x", .LONG 0)], none⟩, ⟨[("x", .LONG 1)], some 0⟩, ⟨[], some 1⟩]

/-- Three nested frames with the innermost one current. -/
def sample3 : ASTExecutor :=
  { globalScope := 0, currentScope := 2, heap := heap3, out := [], err := [], calls := [] }

/-- A dispatcher whose calls all return. -/
def silent : Dispatcher := fun _ _ => none

/-! ## Relations between the states before and after a statement -/

/-- What is compared of the frame at an address: the names it holds and its
parent link (`none` when the address is not allocated). -/
def frameShape (h : Heap) (a : Nat) : Option (List String × Option Nat) :=
  (h[a]?).map (fun sc => (Vars.names sc.vars, sc.parent))

/-- The state `st'` has the same current and global scope as `st`, and every
frame of `st` other than the current one has kept its names and parent. -/
def KeptOutside (st st' : ASTExecutor) : Prop :=
  st'.currentScope = st.currentScope ∧ st'.globalScope = st.globalScope ∧
  st.heap.length ≤ st'.heap.length ∧
  ∀ a, a < st.heap.length → a ≠ st.currentScope → frameShape st'.heap a = frameShape st.heap a

/-- The state `st'` has the same current and global scope as `st`, and every
frame of `st` has kept its names and parent. -/
def KeptAll (st st' : ASTExecutor) : Prop :=
  st'.currentScope = st.currentScope ∧ st'.globalScope = st.globalScope ∧
  st.heap.length ≤ st'.heap.length ∧
  ∀ a, a < st.heap.length → frameShape st'.heap a = frameShape st.heap a

/-- The state a run ended in (the initial state of a fresh evaluator when the
budget ran out or the process was stopped). -/
def Run.state : Run ASTExecutor → ASTExecutor
  | .done s => s
  | .thrown _ s => s
  | .outOfFuel => ASTExecutor.new
  | .trapped => ASTExecutor.new

/-- A block that nests an `IF`, a `LOOP` that runs once and an inner `BLOCK`,
each of which assigns names of its own. -/
def nestedProgram : Stmt :=
  .BLOCK [
    .ASSIGNMENT "n" (.NUMBER (.fin 0)),
    .IF (.BOOL true)
      (.BLOCK [
        .ASSIGNMENT "a" (.STRING "s"),
        .LOOP (.BINARY_OP (.IDENTIFIER "n") "<" (.NUMBER (.fin 1)))
          (.BLOCK [
            .BLOCK [.ASSIGNMENT "c" (.IDENTIFIER "a"), .PRINT (.IDENTIFIER "c")],
            .ASSIGNMENT "n" (.BINARY_OP (.IDENTIFIER "n") "+" (.NUMBER (.fin 1)))])])
      none,
    .PRINT (.IDENTIFIER "n")]

/-- A fresh evaluator after `execute` ran the root block `[x = 5]`. -/
def afterTopLevelAssign : ASTExecutor :=
  { ASTExecutor.new with heap := [⟨[("x", .LONG 5)], none⟩] }

/-- A root block whose nested block assigns `y` and then reads the undefined
name `u`. -/
def faultInNestedBlock : Stmt :=
  .BLOCK [.BLOCK [.ASSIGNMENT "y" (.NUMBER (.fin 1)), .PRINT (.IDENTIFIER "u")]]

/-- A fresh evaluator after `execute` ran `faultInNestedBlock`. -/
def afterFaultInNestedBlock : ASTExecutor :=
  { globalScope := 0, currentScope := 1,
    heap := [⟨[], none⟩, ⟨[("y", .LONG 1)], some 0⟩],
    out := [], err := ["Runtime Error: " ++ undefinedVariable "u"], calls := [] }

/-! ## The counting loop -/

/-- The body of the counting loop of scenario B. -/
def countLoopBody : Stmt :=
  .BLOCK [.PRINT (.IDENTIFIER "i"),
    .ASSIGNMENT "i" (.BINARY_OP (.IDENTIFIER "i") "+" (.NUMBER (.fin 1)))]

/-- The condition `i < b` of the counting loop. -/
def countLoopCond (b : Int) : Expr :=
  .BINARY_OP (.IDENTIFIER "i") "<" (intLiteral b)

/-- The counting loop of scenario B with bound `b`. -/
def countLoop (b : Int) : Stmt := .LOOP (countLoopCond b) countLoopBody

/-- The state after `n` iterations of the counting loop started with `i = a`
in the current frame. -/
def counted (st : ASTExecutor) (a : Int) (n : Nat) : ASTExecutor :=
  { st with
    heap := Scope.define st.heap st.currentScope "i" (.LONG (a + n)) ++
      List.replicate n ⟨[], some st.currentScope⟩,
    out := st.out ++ (List.range n).map (fun (k : Nat) => (Value.LONG (a + (k : Int))).toString) }

/-- A fresh evaluator whose global frame holds `i = 0`. -/
def counterStart : ASTExecutor :=
  { ASTExecutor.new with heap := [⟨[("i", .LONG 0)], none⟩] }

/-- A fresh evaluator whose global frame holds `i = 2^53`. -/
def counterAtLimit : ASTExecutor :=
  { ASTExecutor.new with heap := [⟨[("i", .LONG 9007199254740992)], none⟩] }

/-! ## Operators, node types, numerals and diagnostic lines -/

/-- The seven operators of `evalBinOp`. -/
def binaryOperators : List String := ["+", "-", "*", "/", ">", "<", "=="]

/-- The decimal digits of a natural number, most significant first (`0` for
zero), by `Nat.digits`. -/
def decimalDigits (n : Nat) : List Char :=
  if n = 0 then ['0'] else (Nat.digits 10 n).reverse.map Nat.digitChar

/-- The signed decimal numeral of an integer: a minus sign for a negative
number, then the decimal digits of the magnitude. -/
def decimalNumeral (v : Int) : String :=
  (if v < 0 then "-" else "") ++ String.mk (decimalDigits v.natAbs)

/-- The statement node types `execStmt` dispatches on. -/
def statementTypes : List String := ["IF", "LOOP", "PRINT", "ASSIGNMENT", "AUTO_CALL", "BLOCK"]

/-- The expression node types `evalExpr` dispatches on. -/
def expressionTypes : List String :=
  ["NUMBER", "STRING", "BOOL", "NULL", "IDENTIFIER", "BINARY_OP"]

/-- The state a run ended in, transformed. -/
def Run.mapState (f : ASTExecutor → ASTExecutor) : Run ASTExecutor → Run ASTExecutor
  | .done s => .done (f s)
  | .thrown what s => .thrown what (f s)
  | .outOfFuel => .outOfFuel
  | .trapped => .trapped

/-- The state with the lines `e` put before its diagnostic lines. -/
def withErr (e : List String) (st : ASTExecutor) : ASTExecutor :=
  { st with err := e ++ st.err }

/-- The state without its diagnostic lines. -/
def eraseErr (st : ASTExecutor) : ASTExecutor := { st with err := [] }

/-! ## Runs that reach the read of an undefined name -/

/-- The evaluation of an expression reaches the read of the name `u`, which no
frame of the chain from `cur` holds; every operand evaluated before that read
has returned a value. -/
inductive ReadsUndefined (fuel : Nat) (h : Heap) (cur : Nat) (u : String) : Expr → Prop where
  | identifier (l : List Nat) (hc : IsChain h cur l) (hfuel : l.length ≤ fuel)
      (hall : ∀ g ∈ l, Scope.existsLocal h g u = false) :
      ReadsUndefined fuel h cur u (.IDENTIFIER u)
  | left (left : Expr) (op : String) (right : Expr)
      (hl : ReadsUndefined fuel h cur u left) :
      ReadsUndefined fuel h cur u (.BINARY_OP left op right)
  | right (left : Expr) (op : String) (right : Expr) (lv : Value)
      (hl : evalExpr fuel h cur left = .ok lv) (hr : ReadsUndefined fuel h cur u right) :
      ReadsUndefined fuel h cur u (.BINARY_OP left op right)

/-- The evaluation of the arguments of an `AUTO_CALL` reaches the read of the
undefined name `u`; every argument before has returned a value. -/
inductive ArgsReadUndefined (fuel : Nat) (h : Heap) (cur : Nat) (u : String) :
    List Expr → Prop where
  | head (arg : Expr) (rest : List Expr) (ha : ReadsUndefined fuel h cur u arg) :
      ArgsReadUndefined fuel h cur u (arg :: rest)
  | tail (arg : Expr) (rest : List Expr) (v : Value) (ha : evalExpr fuel h cur arg = .ok v)
      (hr : ArgsReadUndefined fuel h cur u rest) :
      ArgsReadUndefined fuel h cur u (arg :: rest)

mutual

/-- Running the statements from `st` reaches, in the state `st'`, a statement
that reads the undefined name `u`: some statement of the list does, and the
statements before it have returned. -/
inductive BlockFaults (invoke : Dispatcher) (u : String) :
    Nat → List Stmt → ASTExecutor → ASTExecutor → Prop where
  | first (fuel : Nat) (item : Stmt) (rest : List Stmt) (st st' : ASTExecutor)
      (h : StmtFaults invoke u fuel item st st') :
      BlockFaults invoke u (fuel + 1) (item :: rest) st st'
  | later (fuel : Nat) (item : Stmt) (rest : List Stmt) (st st1 st' : ASTExecutor)
      (hdone : execStmt invoke fuel item st = .done st1)
      (h : BlockFaults invoke u fuel rest st1 st') :
      BlockFaults invoke u (fuel + 1) (item :: rest) st st'

/-- Running the statement from `st` reaches, in the state `st'`, a statement
that reads the undefined name `u`: the statement itself (in its expression,
its condition or its arguments; then `st'` is `st`), or one nested in it. -/
inductive StmtFaults (invoke : Dispatcher) (u : String) :
    Nat → Stmt → ASTExecutor → ASTExecutor → Prop where
  | print (fuel : Nat) (e : Expr) (st : ASTExecutor)
      (h : ReadsUndefined fuel st.heap st.currentScope u e) :
      StmtFaults invoke u (fuel + 1) (.PRINT e) st st
  | assignment (fuel : Nat) (name : String) (e : Expr) (st : ASTExecutor)
      (h : ReadsUndefined fuel st.heap st.currentScope u e) :
      StmtFaults invoke u (fuel + 1) (.ASSIGNMENT name e) st st
  | autoCall (fuel : Nat) (f : String) (args : List Expr) (st : ASTExecutor)
      (h : ArgsReadUndefined fuel st.heap st.currentScope u args) :
      StmtFaults invoke u (fuel + 1) (.AUTO_CALL f args) st st
  | block (fuel : Nat) (stmts : List Stmt) (st st' : ASTExecutor)
      (h : BlockFaults invoke u fuel stmts (pushScope st) st') :
      StmtFaults invoke u (fuel + 1) (.BLOCK stmts) st st'
  | ifStmt (fuel : Nat) (c : Expr) (b : Stmt) (e : Option Stmt) (st st' : ASTExecutor)
      (h : IfFaults invoke u fuel c b e st st') :
      StmtFaults invoke u (fuel + 1) (.IF c b e) st st'
  | loop (fuel : Nat) (c : Expr) (b : Stmt) (st st' : ASTExecutor)
      (h : LoopFaults invoke u fuel c b st st') :
      StmtFaults invoke u (fuel + 1) (.LOOP c b) st st'

/-- The scoped body of an `IF` or a `LOOP` reaches a faulting statement. -/
inductive BodyFaults (invoke : Dispatcher) (u : String) :
    Nat → Stmt → ASTExecutor → ASTExecutor → Prop where
  | block (fuel : Nat) (stmts : List Stmt) (st st' : ASTExecutor)
      (h : BlockFaults invoke u fuel stmts (pushScope st) st') :
      BodyFaults invoke u (fuel + 1) (.BLOCK stmts) st st'
  | single (fuel : Nat) (body : Stmt) (st st' : ASTExecutor)
      (hb : ∀ stmts, body ≠ .BLOCK stmts)
      (h : StmtFaults invoke u fuel body (pushScope st) st') :
      BodyFaults invoke u (fuel + 1) body st st'

/-- An `IF` reaches a faulting read in its condition, or a faulting statement
in the body its condition selects. -/
inductive IfFaults (invoke : Dispatcher) (u : String) :
    Nat → Expr → Stmt → Option Stmt → ASTExecutor → ASTExecutor → Prop where
  | cond (fuel : Nat) (c : Expr) (b : Stmt) (e : Option Stmt) (st : ASTExecutor)
      (h : ReadsUndefined fuel st.heap st.currentScope u c) :
      IfFaults invoke u (fuel + 1) c b e st st
  | thenBody (fuel : Nat) (c : Expr) (b : Stmt) (e : Option Stmt) (st st' : ASTExecutor)
      (cond : Value) (hc : evalExpr fuel st.heap st.currentScope c = .ok cond)
      (ht : isTrue cond = true) (h : BodyFaults invoke u fuel b st st') :
      IfFaults invoke u (fuel + 1) c b e st st'
  | elseBody (fuel : Nat) (c : Expr) (b eb : Stmt) (st st' : ASTExecutor)
      (cond : Value) (hc : evalExpr fuel st.heap st.currentScope c = .ok cond)
      (ht : isTrue cond = false) (h : BodyFaults invoke u fuel eb st st') :
      IfFaults invoke u (fuel + 1) c b (some eb) st st'

/-- A `LOOP` reaches a faulting read in its condition or a faulting statement
in its body, in the first iteration or after iterations that returned. -/
inductive LoopFaults (invoke : Dispatcher) (u : String) :
    Nat → Expr → Stmt → ASTExecutor → ASTExecutor → Prop where
  | cond (fuel : Nat) (c : Expr) (b : Stmt) (st : ASTExecutor)
      (h : ReadsUndefined fuel st.heap st.currentScope u c) :
      LoopFaults invoke u (fuel + 1) c b st st
  | body (fuel : Nat) (c : Expr) (b : Stmt) (st st' : ASTExecutor)
      (cond : Value) (hc : evalExpr fuel st.heap st.currentScope c = .ok cond)
      (ht : isTrue cond = true) (h : BodyFaults invoke u fuel b st st') :
      LoopFaults invoke u (fuel + 1) c b st st'
  | next (fuel : Nat) (c : Expr) (b : Stmt) (st st1 st' : ASTExecutor)
      (cond : Value) (hc : evalExpr fuel st.heap st.currentScope c = .ok cond)
      (ht : isTrue cond = true) (hdone : execBody invoke fuel b st = .done st1)
      (h : LoopFaults invoke u fuel c b st1 st') :
      LoopFaults invoke u (fuel + 1) c b st st'

end

/-- A root block with a nested fault: after a `PRINT`, the then-body of an
`IF` makes an `AUTO_CALL` whose argument `1 + u` reads the undefined `u`. -/
def nestedFault : List Stmt :=
  [.PRINT (.STRING "a"),
   .IF (.BOOL true)
     (.BLOCK [.AUTO_CALL "f" [.BINARY_OP (.NUMBER (.fin 1)) "+" (.IDENTIFIER "u")]]) none,
   .PRINT (.STRING "b")]

/-- The state in which the `AUTO_CALL` of `nestedFault` starts on a fresh
evaluator: `a` is written and the frame of the then-body is current. -/
def atNestedFault : ASTExecutor := pushScope (IO_print "a" ASTExecutor.new)

/-! ## Scope: lemmas -/

theorem Vars.find_set_self (name : String) (value : Value) (vars : Vars) :
    Vars.find name (Vars.set name value vars) = some value := by
  induction vars with
  | nil => simp [Vars.set, Vars.find]
  | cons kv rest ih =>
    obtain ⟨k, v⟩ := kv
    by_cases hk : k = name
    · simp [Vars.set, Vars.find, hk]
    · simp [Vars.set, Vars.find, hk, ih]

theorem Vars.find_set_other (name other : String) (value : Value) (vars : Vars)
    (hne : other ≠ name) :
    Vars.find other (Vars.set name value vars) = Vars.find other vars := by
  induction vars with
  | nil =>
    have : ¬ name = other := fun e => hne e.symm
    simp [Vars.set, Vars.find, this]
  | cons kv rest ih =>
    obtain ⟨k, v⟩ := kv
    by_cases hk : k = name
    · have : ¬ name = other := fun e => hne e.symm
      simp [Vars.set, Vars.find, hk, this]
    · by_cases ho : k = other
      · subst ho
        simp [Vars.set, Vars.find, hk]
      · simp [Vars.set, Vars.find, hk, ho, ih]

theorem Vars.names_set_of_find (name : String) (value : Value) (vars : Vars)
    (hf : (Vars.find name vars).isSome = true) :
    Vars.names (Vars.set name value vars) = Vars.names vars := by
  induction vars with
  | nil => simp [Vars.find] at hf
  | cons kv rest ih =>
    obtain ⟨k, v⟩ := kv
    by_cases hk : k = name
    · simp [Vars.set, Vars.names, hk]
    · simp only [Vars.find, hk, if_false] at hf
      have := ih hf
      simp only [Vars.names] at this
      simp [Vars.set, Vars.names, hk, this]

theorem Vars.names_set_of_not_find (name : String) (value : Value) (vars : Vars)
    (hf : Vars.find name vars = none) :
    Vars.names (Vars.set name value vars) = Vars.names vars ++ [name] := by
  induction vars with
  | nil => simp [Vars.set, Vars.names]
  | cons kv rest ih =>
    obtain ⟨k, v⟩ := kv
    by_cases hk : k = name
    · simp [Vars.find, hk] at hf
    · simp only [Vars.find, hk, if_false] at hf
      have := ih hf
      simp only [Vars.names] at this
      simp [Vars.set, Vars.names, hk, this]

theorem Vars.set_of_find (name : String) (value : Value) (vars : Vars)
    (hf : Vars.find name vars = some value) : Vars.set name value vars = vars := by
  induction vars with
  | nil => simp [Vars.find] at hf
  | cons kv rest ih =>
    obtain ⟨k, v⟩ := kv
    by_cases hk : k = name
    · simp only [Vars.find, hk, if_true, Option.some.injEq] at hf
      simp [Vars.set, hk, hf]
    · simp only [Vars.find, hk, if_false] at hf
      simp [Vars.set, hk, ih hf]

theorem Scope.existsLocal_eq (h : Heap) (self : Nat) (sc : Scope) (name : String)
    (ha : h[self]? = some sc) :
    Scope.existsLocal h self name = (Vars.find name sc.vars).isSome := by
  simp [Scope.existsLocal, ha]

theorem IsChain.head_mem {h : Heap} {a : Nat} {l : List Nat} (hc : IsChain h a l) :
    ∃ t, l = a :: t := by
  cases hc with
  | root => exact ⟨[], rfl⟩
  | step _ p sc t => exact ⟨t, rfl⟩

/-- The lookup finds the nearest frame that holds the name. -/
theorem Scope.get_nearest {h : Heap} {self : Nat} {l : List Nat} (hc : IsChain h self l)
    (name : String) :
    ∀ (fuel : Nat) (pre : List Nat) (f : Nat) (post : List Nat) (sc : Scope) (v : Value),
      l.length ≤ fuel → l = pre ++ f :: post →
      (∀ g ∈ pre, Scope.existsLocal h g name = false) →
      h[f]? = some sc → Vars.find name sc.vars = some v →
      Scope.get fuel h self name = .ok v := by
  induction hc with
  | root a sc0 ha hp =>
    intro fuel pre f post sc v hfuel hl hpre hf hv
    cases pre with
    | nil =>
      simp only [List.nil_append, List.cons.injEq] at hl
      obtain ⟨rfl, -⟩ := hl
      cases fuel with
      | zero => simp at hfuel
      | succ n =>
        rw [ha] at hf; cases hf
        simp [Scope.get, ha, hv]
    | cons x xs =>
      cases xs <;> simp at hl
  | step a p sc0 t ha hp hl0 ih =>
    intro fuel pre f post sc v hfuel hl hpre hf hv
    cases fuel with
    | zero => simp at hfuel
    | succ n =>
      cases pre with
      | nil =>
        simp only [List.nil_append, List.cons.injEq] at hl
        obtain ⟨rfl, -⟩ := hl
        rw [ha] at hf; cases hf
        simp [Scope.get, ha, hv]
      | cons x xs =>
        simp only [List.cons_append, List.cons.injEq] at hl
        obtain ⟨rfl, hl⟩ := hl
        have hx := hpre a (List.mem_cons_self _ _)
        rw [Scope.existsLocal_eq h a sc0 name ha] at hx
        have hnone : Vars.find name sc0.vars = none := by
          cases hfind : Vars.find name sc0.vars with
          | none => rfl
          | some w => rw [hfind] at hx; simp at hx
        have hrec := ih n xs f post sc v (by simpa using hfuel) hl
          (fun g hg => hpre g (List.mem_cons_of_mem _ hg)) hf hv
        simp [Scope.get, ha, hnone, hp, hrec]

/-- The lookup throws `UndefinedVariable` exactly when no frame holds the name. -/
theorem Scope.get_thrown_iff {h : Heap} {self : Nat} {l : List Nat} (hc : IsChain h self l)
    (name : String) :
    ∀ (fuel : Nat), l.length ≤ fuel →
      (Scope.get fuel h self name = .thrown (undefinedVariable name) ↔
        ∀ g ∈ l, Scope.existsLocal h g name = false) := by
  induction hc with
  | root a sc0 ha hp =>
    intro fuel hfuel
    cases fuel with
    | zero => simp at hfuel
    | succ n =>
      cases hfind : Vars.find name sc0.vars with
      | none => simp [Scope.get, ha, hfind, hp, Scope.existsLocal]
      | some w => simp [Scope.get, ha, hfind, Scope.existsLocal]
  | step a p sc0 t ha hp hl0 ih =>
    intro fuel hfuel
    cases fuel with
    | zero => simp at hfuel
    | succ n =>
      have hrec := ih n (by simpa using hfuel)
      cases hfind : Vars.find name sc0.vars with
      | none =>
        simp only [Scope.get, ha, hfind, hp, hrec, List.mem_cons, forall_eq_or_imp]
        simp [Scope.existsLocal, ha, hfind]
      | some w => simp [Scope.get, ha, hfind, Scope.existsLocal]

/-- The update reaches the nearest frame that holds the name and overwrites
its entry there. -/
theorem Scope.assign_nearest {h : Heap} {self : Nat} {l : List Nat} (hc : IsChain h self l)
    (name : String) (value : Value) :
    ∀ (fuel : Nat) (pre : List Nat) (f : Nat) (post : List Nat) (sc : Scope),
      l.length ≤ fuel → l = pre ++ f :: post →
      (∀ g ∈ pre, Scope.existsLocal h g name = false) →
      h[f]? = some sc → (Vars.find name sc.vars).isSome = true →
      Scope.assign fuel h self name value =
        .done (h.set f { sc with vars := Vars.set name value sc.vars }) := by
  induction hc with
  | root a sc0 ha hp =>
    intro fuel pre f post sc hfuel hl hpre hf hv
    cases pre with
    | nil =>
      simp only [List.nil_append, List.cons.injEq] at hl
      obtain ⟨rfl, -⟩ := hl
      cases fuel with
      | zero => simp at hfuel
      | succ n =>
        rw [ha] at hf; cases hf
        simp [Scope.assign, ha, hv]
    | cons x xs =>
      cases xs <;> simp at hl
  | step a p sc0 t ha hp hl0 ih =>
    intro fuel pre f post sc hfuel hl hpre hf hv
    cases fuel with
    | zero => simp at hfuel
    | succ n =>
      cases pre with
      | nil =>
        simp only [List.nil_append, List.cons.injEq] at hl
        obtain ⟨rfl, -⟩ := hl
        rw [ha] at hf; cases hf
        simp [Scope.assign, ha, hv]
      | cons x xs =>
        simp only [List.cons_append, List.cons.injEq] at hl
        obtain ⟨rfl, hl⟩ := hl
        have hx := hpre a (List.mem_cons_self _ _)
        rw [Scope.existsLocal_eq h a sc0 name ha] at hx
        have hrec := ih n xs f post sc (by simpa using hfuel) hl
          (fun g hg => hpre g (List.mem_cons_of_mem _ hg)) hf hv
        simp [Scope.assign, ha, hx, hp, hrec]

/-- The update throws `UndefinedVariable`, with the heap as it was, when no
frame holds the name. -/
theorem Scope.assign_absent {h : Heap} {self : Nat} {l : List Nat} (hc : IsChain h self l)
    (name : String) (value : Value) :
    ∀ (fuel : Nat), l.length ≤ fuel →
      (∀ g ∈ l, Scope.existsLocal h g name = false) →
      Scope.assign fuel h self name value = .thrown (undefinedVariable name) h := by
  induction hc with
  | root a sc0 ha hp =>
    intro fuel hfuel hall
    cases fuel with
    | zero => simp at hfuel
    | succ n =>
      have hx := hall a (List.mem_cons_self _ _)
      rw [Scope.existsLocal_eq h a sc0 name ha] at hx
      simp [Scope.assign, ha, hx, hp]
  | step a p sc0 t ha hp hl0 ih =>
    intro fuel hfuel hall
    cases fuel with
    | zero => simp at hfuel
    | succ n =>
      have hx := hall a (List.mem_cons_self _ _)
      rw [Scope.existsLocal_eq h a sc0 name ha] at hx
      have hrec := ih n (by simpa using hfuel) (fun g hg => hall g (List.mem_cons_of_mem _ hg))
      simp [Scope.assign, ha, hx, hp, hrec]

/-- Every frame of a chain is allocated. -/
theorem IsChain.mem_lt {h : Heap} {self : Nat} {l : List Nat} (hc : IsChain h self l) :
    ∀ g ∈ l, g < h.length := by
  induction hc with
  | root a sc ha hp =>
    intro g hg
    simp only [List.mem_singleton] at hg
    subst hg
    exact (List.getElem?_eq_some_iff.mp ha).1
  | step a p sc t ha hp hl ih =>
    intro g hg
    rcases List.mem_cons.mp hg with rfl | hg
    · exact (List.getElem?_eq_some_iff.mp ha).1
    · exact ih g hg

/-- In a chain, either some nearest frame holds the name or none does. -/
theorem nearest_or_absent (h : Heap) (name : String) (l : List Nat) :
    (∀ g ∈ l, Scope.existsLocal h g name = false) ∨
    ∃ pre f post, l = pre ++ f :: post ∧
      (∀ g ∈ pre, Scope.existsLocal h g name = false) ∧ Scope.existsLocal h f name = true := by
  induction l with
  | nil => left; simp
  | cons a t ih =>
    by_cases ha : Scope.existsLocal h a name = true
    · right; exact ⟨[], a, t, rfl, by simp, ha⟩
    · rcases ih with hall | ⟨pre, f, post, hl, hpre, hf⟩
      · left
        intro g hg
        rcases List.mem_cons.mp hg with rfl | hg
        · simpa using ha
        · exact hall g hg
      · right
        refine ⟨a :: pre, f, post, by simp [hl], ?_, hf⟩
        intro g hg
        rcases List.mem_cons.mp hg with rfl | hg
        · simpa using ha
        · exact hpre g hg

/-! ## Claims on Scope -/

/-- C1: in a chain of frames, `Scope::get` returns the value bound in the
nearest frame that holds the name, whatever farther frames bind, and it throws
`UndefinedVariable` exactly when no frame of the chain holds the name. -/
theorem C1_get_nearest_frame (h : Heap) (self : Nat) (l : List Nat) (name : String)
    (fuel : Nat) (hc : IsChain h self l) (hfuel : l.length ≤ fuel) :
    (∀ (pre : List Nat) (f : Nat) (post : List Nat) (sc : Scope) (v : Value),
        l = pre ++ f :: post →
        (∀ g ∈ pre, Scope.existsLocal h g name = false) →
        h[f]? = some sc → Vars.find name sc.vars = some v →
        Scope.get fuel h self name = .ok v) ∧
    (Scope.get fuel h self name = .thrown (undefinedVariable name) ↔
        ∀ g ∈ l, Scope.existsLocal h g name = false) :=
  ⟨fun pre f post sc v hl hpre hf hv =>
      Scope.get_nearest hc name fuel pre f post sc v hfuel hl hpre hf hv,
    Scope.get_thrown_iff hc name fuel hfuel⟩

theorem heap3_chain : IsChain heap3 2 [2, 1, 0] :=
  .step 2 1 ⟨[], some 1⟩ [1, 0] rfl rfl
    (.step 1 0 ⟨[("x", .LONG 1)], some 0⟩ [0] rfl rfl
      (.root 0 ⟨[("x", .LONG 0)], none⟩ rfl rfl))

theorem C1_get_nearest_frame_witness :
    Scope.get 3 heap3 2 "x" = .ok (.LONG 1) ∧
    (Scope.get 3 heap3 2 "y" = .thrown (undefinedVariable "y") ↔
        ∀ g ∈ [2, 1, 0], Scope.existsLocal heap3 g "y" = false) :=
  ⟨(C1_get_nearest_frame heap3 2 [2, 1, 0] "x" 3 heap3_chain (by decide)).1
      [2] 1 [0] ⟨[("x", .LONG 1)], some 0⟩ (.LONG 1) rfl (by decide) rfl rfl,
    (C1_get_nearest_frame heap3 2 [2, 1, 0] "y" 3 heap3_chain (by decide)).2⟩

/-- C2: `Scope::assign` overwrites the entry of the name in the nearest frame
that holds it and changes nothing else: the other names of that frame, its
parent link, its list of names and every other frame stay as they were; when no
frame holds the name it throws `UndefinedVariable` and the heap is unchanged. -/
theorem C2_assign_nearest_frame_only (h : Heap) (self : Nat) (l : List Nat) (name : String)
    (value : Value) (fuel : Nat) (hc : IsChain h self l) (hfuel : l.length ≤ fuel) :
    (∀ (pre : List Nat) (f : Nat) (post : List Nat) (sc : Scope),
        l = pre ++ f :: post →
        (∀ g ∈ pre, Scope.existsLocal h g name = false) →
        h[f]? = some sc → (Vars.find name sc.vars).isSome = true →
        ∃ h' sc', Scope.assign fuel h self name value = .done h' ∧
          h'.length = h.length ∧
          (∀ g, g ≠ f → h'[g]? = h[g]?) ∧
          h'[f]? = some sc' ∧ sc'.parent = sc.parent ∧
          Vars.find name sc'.vars = some value ∧
          (∀ m, m ≠ name → Vars.find m sc'.vars = Vars.find m sc.vars) ∧
          Vars.names sc'.vars = Vars.names sc.vars) ∧
    ((∀ g ∈ l, Scope.existsLocal h g name = false) →
        Scope.assign fuel h self name value = .thrown (undefinedVariable name) h) := by
  refine ⟨?_, Scope.assign_absent hc name value fuel hfuel⟩
  intro pre f post sc hl hpre hf hv
  have hlt : f < h.length := (List.getElem?_eq_some_iff.mp hf).1
  refine ⟨_, { sc with vars := Vars.set name value sc.vars },
    Scope.assign_nearest hc name value fuel pre f post sc hfuel hl hpre hf hv, ?_, ?_, ?_, rfl,
    Vars.find_set_self name value sc.vars,
    fun m hm => Vars.find_set_other name m value sc.vars hm,
    Vars.names_set_of_find name value sc.vars hv⟩
  · simp
  · intro g hg
    rw [List.getElem?_set_ne (Ne.symm hg)]
  · rw [List.getElem?_set_self hlt]

theorem C2_assign_nearest_frame_only_witness :
    (∀ (pre : List Nat) (f : Nat) (post : List Nat) (sc : Scope),
        [2, 1, 0] = pre ++ f :: post →
        (∀ g ∈ pre, Scope.existsLocal heap3 g "x" = false) →
        heap3[f]? = some sc → (Vars.find "x" sc.vars).isSome = true →
        ∃ h' sc', Scope.assign 3 heap3 2 "x" (.LONG 7) = .done h' ∧
          h'.length = heap3.length ∧
          (∀ g, g ≠ f → h'[g]? = heap3[g]?) ∧
          h'[f]? = some sc' ∧ sc'.parent = sc.parent ∧
          Vars.find "x" sc'.vars = some (.LONG 7) ∧
          (∀ m, m ≠ "x" → Vars.find m sc'.vars = Vars.find m sc.vars) ∧
          Vars.names sc'.vars = Vars.names sc.vars) ∧
    ((∀ g ∈ [2, 1, 0], Scope.existsLocal heap3 g "x" = false) →
        Scope.assign 3 heap3 2 "x" (.LONG 7) = .thrown (undefinedVariable "x") heap3) :=
  C2_assign_nearest_frame_only heap3 2 [2, 1, 0] "x" (.LONG 7) 3 heap3_chain (by decide)

/-- C3: `Scope::define` returns (it has no throwing path) and touches the frame
it is called on only: afterwards `existsLocal` holds and `get` returns the new
value, the other names of the frame and its parent link are as before, and
every other frame (an ancestor that holds the name included) is unchanged.
`existsLocal` looks at the frame's own map only. -/
theorem C3_define_local_only (h : Heap) (self : Nat) (sc : Scope) (name : String)
    (value : Value) (ha : h[self]? = some sc) :
    Scope.existsLocal (Scope.define h self name value) self name = true ∧
    (∀ fuel, Scope.get (fuel + 1) (Scope.define h self name value) self name = .ok value) ∧
    (Scope.define h self name value).length = h.length ∧
    (∃ sc', (Scope.define h self name value)[self]? = some sc' ∧ sc'.parent = sc.parent ∧
        ∀ m, m ≠ name → Vars.find m sc'.vars = Vars.find m sc.vars) ∧
    (∀ g, g ≠ self → (Scope.define h self name value)[g]? = h[g]?) ∧
    (∀ n, Scope.existsLocal h self n = true ↔ ∃ v, Vars.find n sc.vars = some v) := by
  have hlt : self < h.length := (List.getElem?_eq_some_iff.mp ha).1
  have hdef : Scope.define h self name value =
      h.set self { sc with vars := Vars.set name value sc.vars } := by
    simp [Scope.define, ha]
  have hself : (Scope.define h self name value)[self]? =
      some { sc with vars := Vars.set name value sc.vars } := by
    rw [hdef, List.getElem?_set_self hlt]
  refine ⟨?_, ?_, ?_, ⟨_, hself, rfl, fun m hm => Vars.find_set_other name m value sc.vars hm⟩,
    ?_, ?_⟩
  · simp [Scope.existsLocal, hself, Vars.find_set_self]
  · intro fuel
    simp [Scope.get, hself, Vars.find_set_self]
  · simp [hdef]
  · intro g hg
    rw [hdef, List.getElem?_set_ne (Ne.symm hg)]
  · intro n
    rw [Scope.existsLocal_eq h self sc n ha, Option.isSome_iff_exists]

theorem C3_define_local_only_witness :
    Scope.existsLocal (Scope.define heap3 2 "x" (.LONG 9)) 2 "x" = true ∧
    (∀ fuel, Scope.get (fuel + 1) (Scope.define heap3 2 "x" (.LONG 9)) 2 "x" = .ok (.LONG 9)) ∧
    (Scope.define heap3 2 "x" (.LONG 9)).length = heap3.length ∧
    (∃ sc', (Scope.define heap3 2 "x" (.LONG 9))[2]? = some sc' ∧
        sc'.parent = (⟨[], some 1⟩ : Scope).parent ∧
        ∀ m, m ≠ "x" → Vars.find m sc'.vars = Vars.find m (⟨[], some 1⟩ : Scope).vars) ∧
    (∀ g, g ≠ 2 → (Scope.define heap3 2 "x" (.LONG 9))[g]? = heap3[g]?) ∧
    (∀ n, Scope.existsLocal heap3 2 n = true ↔
        ∃ v, Vars.find n (⟨[], some 1⟩ : Scope).vars = some v) :=
  C3_define_local_only heap3 2 ⟨[], some 1⟩ "x" (.LONG 9) rfl

/-! ## Claims on statements -/

theorem execAssign_found {st : ASTExecutor} {l : List Nat}
    (hc : IsChain st.heap st.currentScope l) (name : String) (e : Expr) (v : Value)
    (fuel : Nat) (hfuel : l.length ≤ fuel)
    (hv : evalExpr fuel st.heap st.currentScope e = .ok v)
    (pre : List Nat) (f : Nat) (post : List Nat) (sc : Scope)
    (hl : l = pre ++ f :: post)
    (hpre : ∀ g ∈ pre, Scope.existsLocal st.heap g name = false)
    (hf : st.heap[f]? = some sc) (hs : (Vars.find name sc.vars).isSome = true) :
    execAssign fuel name e st =
      .done { st with heap := st.heap.set f { sc with vars := Vars.set name v sc.vars } } := by
  have h1 := Scope.assign_nearest hc name v fuel pre f post sc hfuel hl hpre hf hs
  simp only [execAssign, hv, h1]
  split <;> rfl

theorem execAssign_absent {st : ASTExecutor} {l : List Nat}
    (hc : IsChain st.heap st.currentScope l) (name : String) (e : Expr) (v : Value)
    (fuel : Nat) (hfuel : l.length ≤ fuel)
    (hv : evalExpr fuel st.heap st.currentScope e = .ok v)
    (hall : ∀ g ∈ l, Scope.existsLocal st.heap g name = false) :
    execAssign fuel name e st =
      .done { st with heap := Scope.define st.heap st.currentScope name v } := by
  have h1 := Scope.assign_absent hc name v fuel hfuel hall
  obtain ⟨t, rfl⟩ := hc.head_mem
  have h2 := hall st.currentScope (List.mem_cons_self _ _)
  simp [execAssign, hv, h1, h2]

/-- C4: an `ASSIGNMENT` whose right-hand side evaluates to `v`.  When a frame
of the current chain holds the target, the nearest such frame gets `v` and, if
the current frame did not hold the target, the current frame is left as it
was.  When no frame holds the target the statement returns normally with the
target defined as `v` in the current frame; every other frame is unchanged. -/
theorem C4_assignment_policy (invoke : Dispatcher) (st : ASTExecutor) (l : List Nat)
    (name : String) (e : Expr) (v : Value) (fuel : Nat)
    (hc : IsChain st.heap st.currentScope l) (hfuel : l.length ≤ fuel)
    (hv : evalExpr fuel st.heap st.currentScope e = .ok v) :
    (∀ (pre : List Nat) (f : Nat) (post : List Nat) (sc : Scope),
        l = pre ++ f :: post →
        (∀ g ∈ pre, Scope.existsLocal st.heap g name = false) →
        st.heap[f]? = some sc → (Vars.find name sc.vars).isSome = true →
        ∃ h' sc', execStmt invoke (fuel + 1) (.ASSIGNMENT name e) st = .done { st with heap := h' } ∧
          h'[f]? = some sc' ∧ Vars.find name sc'.vars = some v ∧
          (∀ g, g ≠ f → h'[g]? = st.heap[g]?) ∧
          (Scope.existsLocal st.heap st.currentScope name = false →
            h'[st.currentScope]? = st.heap[st.currentScope]? ∧
            Scope.existsLocal h' st.currentScope name = false)) ∧
    ((∀ g ∈ l, Scope.existsLocal st.heap g name = false) →
        ∃ h', execStmt invoke (fuel + 1) (.ASSIGNMENT name e) st = .done { st with heap := h' } ∧
          Scope.existsLocal h' st.currentScope name = true ∧
          Scope.get (fuel + 1) h' st.currentScope name = .ok v ∧
          (∀ g, g ≠ st.currentScope → h'[g]? = st.heap[g]?)) := by
  constructor
  · intro pre f post sc hl hpre hf hs
    have hlt : f < st.heap.length := (List.getElem?_eq_some_iff.mp hf).1
    have hne : ∀ g, g ≠ f →
        (st.heap.set f { sc with vars := Vars.set name v sc.vars })[g]? = st.heap[g]? :=
      fun g hg => List.getElem?_set_ne (Ne.symm hg)
    refine ⟨st.heap.set f { sc with vars := Vars.set name v sc.vars },
      { sc with vars := Vars.set name v sc.vars }, ?_, ?_,
      Vars.find_set_self name v sc.vars, hne, ?_⟩
    · simp only [execStmt]
      exact execAssign_found hc name e v fuel hfuel hv pre f post sc hl hpre hf hs
    · rw [List.getElem?_set_self hlt]
    · intro hcur
      have hcf : st.currentScope ≠ f := by
        intro heq
        rw [heq, Scope.existsLocal_eq st.heap f sc name hf, hs] at hcur
        exact Bool.noConfusion hcur
      have hsame := hne st.currentScope hcf
      refine ⟨hsame, ?_⟩
      simp only [Scope.existsLocal, hsame] at hcur ⊢
      exact hcur
  · intro hall
    obtain ⟨t, rfl⟩ := hc.head_mem
    have hmem := hc.mem_lt st.currentScope (List.mem_cons_self _ _)
    obtain ⟨sc, hsc⟩ : ∃ sc, st.heap[st.currentScope]? = some sc :=
      ⟨_, List.getElem?_eq_getElem hmem⟩
    have hdef : Scope.define st.heap st.currentScope name v =
        st.heap.set st.currentScope { sc with vars := Vars.set name v sc.vars } := by
      simp [Scope.define, hsc]
    have hself : (Scope.define st.heap st.currentScope name v)[st.currentScope]? =
        some { sc with vars := Vars.set name v sc.vars } := by
      rw [hdef, List.getElem?_set_self hmem]
    refine ⟨Scope.define st.heap st.currentScope name v, ?_, ?_, ?_, ?_⟩
    · simp only [execStmt]
      exact execAssign_absent hc name e v fuel hfuel hv hall
    · simp [Scope.existsLocal, hself, Vars.find_set_self]
    · simp [Scope.get, hself, Vars.find_set_self]
    · intro g hg
      rw [hdef, List.getElem?_set_ne (Ne.symm hg)]

theorem C4_assignment_policy_witness :
    (∃ h', execStmt silent 4 (.ASSIGNMENT "x" (.NUMBER (.fin 5))) sample3 =
        .done { sample3 with heap := h' } ∧
      Scope.get 3 h' 2 "x" = .ok (.LONG 5) ∧ h'[2]? = heap3[2]? ∧ h'[0]? = heap3[0]?) ∧
    (∃ h', execStmt silent 4 (.ASSIGNMENT "y" (.NUMBER (.fin 5))) sample3 =
        .done { sample3 with heap := h' } ∧
      Scope.existsLocal h' 2 "y" = true ∧ h'[1]? = heap3[1]? ∧ h'[0]? = heap3[0]?) := by
  constructor
  · obtain ⟨h', sc', hrun, hf, hfind, hne, hcur⟩ :=
      (C4_assignment_policy silent sample3 [2, 1, 0] "x" (.NUMBER (.fin 5)) (.LONG 5) 3
        heap3_chain (by decide) (by decide)).1 [2] 1 [0] ⟨[("x", .LONG 1)], some 0⟩ rfl
        (by decide) rfl rfl
    refine ⟨h', hrun, ?_, (hcur (by decide)).1, hne 0 (by decide)⟩
    have h2 : h'[2]? = some ⟨[], some 1⟩ := (hcur (by decide)).1
    simp [Scope.get, h2, hf, hfind, Vars.find]
  · obtain ⟨h', hrun, hex, -, hne⟩ :=
      (C4_assignment_policy silent sample3 [2, 1, 0] "y" (.NUMBER (.fin 5)) (.LONG 5) 3
        heap3_chain (by decide) (by decide)).2 (by decide)
    exact ⟨h', hrun, hex, hne 1 (by decide), hne 0 (by decide)⟩

/-! ## What every statement keeps -/

theorem KeptOutside.same (st : ASTExecutor) : KeptOutside st st :=
  ⟨rfl, rfl, le_refl _, fun _ _ _ => rfl⟩

theorem KeptAll.unchanged (st : ASTExecutor) : KeptAll st st :=
  ⟨rfl, rfl, le_refl _, fun _ _ => rfl⟩

theorem KeptAll.outside {st st' : ASTExecutor} (hk : KeptAll st st') : KeptOutside st st' :=
  ⟨hk.1, hk.2.1, hk.2.2.1, fun a ha _ => hk.2.2.2 a ha⟩

theorem KeptOutside.andThen {s1 s2 s3 : ASTExecutor} (h12 : KeptOutside s1 s2)
    (h23 : KeptOutside s2 s3) : KeptOutside s1 s3 := by
  obtain ⟨c1, g1, l1, f1⟩ := h12
  obtain ⟨c2, g2, l2, f2⟩ := h23
  refine ⟨c2.trans c1, g2.trans g1, le_trans l1 l2, ?_⟩
  intro a ha hne
  rw [f2 a (lt_of_lt_of_le ha l1) (by rw [c1]; exact hne), f1 a ha hne]

theorem KeptAll.followedBy {s1 s2 s3 : ASTExecutor} (h12 : KeptAll s1 s2)
    (h23 : KeptAll s2 s3) : KeptAll s1 s3 := by
  obtain ⟨c1, g1, l1, f1⟩ := h12
  obtain ⟨c2, g2, l2, f2⟩ := h23
  refine ⟨c2.trans c1, g2.trans g1, le_trans l1 l2, ?_⟩
  intro a ha
  rw [f2 a (lt_of_lt_of_le ha l1), f1 a ha]

/-- A returning `Scope::assign` keeps the shape of every frame. -/
theorem Scope.assign_done_shape (name : String) (value : Value) :
    ∀ (fuel : Nat) (h : Heap) (self : Nat) (h' : Heap),
      Scope.assign fuel h self name value = .done h' →
      h'.length = h.length ∧ ∀ a, frameShape h' a = frameShape h a := by
  intro fuel
  induction fuel with
  | zero => intro h self h' hr; simp [Scope.assign] at hr
  | succ n ih =>
    intro h self h' hr
    simp only [Scope.assign] at hr
    cases hs : h[self]? with
    | none => simp [hs] at hr
    | some sc =>
      simp only [hs] at hr
      by_cases hf : (Vars.find name sc.vars).isSome = true
      · simp only [hf, if_true, Run.done.injEq] at hr
        subst hr
        refine ⟨by simp, ?_⟩
        intro a
        by_cases ha : a = self
        · subst ha
          have hlt : a < h.length := (List.getElem?_eq_some_iff.mp hs).1
          simp [frameShape, List.getElem?_set_self hlt, hs, Vars.names_set_of_find name value _ hf]
        · simp [frameShape, List.getElem?_set_ne (Ne.symm ha)]
      · simp only [hf] at hr
        cases hp : sc.parent with
        | none => simp [hp] at hr
        | some p =>
          simp only [hp] at hr
          exact ih h p h' (by simpa using hr)

/-- A throwing `Scope::assign` has not touched the heap. -/
theorem Scope.assign_thrown_heap (name : String) (value : Value) :
    ∀ (fuel : Nat) (h : Heap) (self : Nat) (what : String) (h' : Heap),
      Scope.assign fuel h self name value = .thrown what h' → h' = h := by
  intro fuel
  induction fuel with
  | zero => intro h self what h' hr; simp [Scope.assign] at hr
  | succ n ih =>
    intro h self what h' hr
    simp only [Scope.assign] at hr
    cases hs : h[self]? with
    | none => simp only [hs, Run.thrown.injEq] at hr; exact hr.2.symm
    | some sc =>
      simp only [hs] at hr
      by_cases hf : (Vars.find name sc.vars).isSome = true
      · simp [hf] at hr
      · simp only [hf] at hr
        cases hp : sc.parent with
        | none => simp only [hp, Run.thrown.injEq] at hr; simp at hr; exact hr.2.symm
        | some p =>
          simp only [hp] at hr
          exact ih h p what h' (by simpa using hr)

theorem Scope.define_shape (h : Heap) (self : Nat) (name : String) (value : Value) :
    (Scope.define h self name value).length = h.length ∧
    ∀ a, a ≠ self → frameShape (Scope.define h self name value) a = frameShape h a := by
  unfold Scope.define
  cases hs : h[self]? with
  | none => simp
  | some sc =>
    refine ⟨by simp, fun a ha => ?_⟩
    simp [frameShape, List.getElem?_set_ne (Ne.symm ha)]

theorem execPrint_kept (fuel : Nat) (e : Expr) (st st' : ASTExecutor)
    (hr : execPrint fuel e st = .done st') : KeptAll st st' := by
  unfold execPrint at hr
  cases he : evalExpr fuel st.heap st.currentScope e with
  | ok v =>
    simp only [he, Run.done.injEq] at hr
    subst hr
    exact ⟨rfl, rfl, le_refl _, fun _ _ => rfl⟩
  | thrown w => simp [he] at hr
  | outOfFuel => simp [he] at hr
  | trapped => simp [he] at hr

theorem execAuto_kept (invoke : Dispatcher) (fuel : Nat) (f : String) (args : List Expr)
    (st st' : ASTExecutor) (hr : execAuto invoke fuel f args st = .done st') :
    KeptAll st st' := by
  unfold execAuto at hr
  cases he : evalArgs fuel st.heap st.currentScope args with
  | ok vs =>
    simp only [he] at hr
    cases hi : invoke f vs with
    | none =>
      simp only [hi, Run.done.injEq] at hr
      subst hr
      exact ⟨rfl, rfl, le_refl _, fun _ _ => rfl⟩
    | some w =>
      simp only [hi, Run.done.injEq] at hr
      subst hr
      exact ⟨rfl, rfl, le_refl _, fun _ _ => rfl⟩
  | thrown w => simp [he] at hr
  | outOfFuel => simp [he] at hr
  | trapped => simp [he] at hr

theorem execAssign_kept (fuel : Nat) (name : String) (e : Expr) (st st' : ASTExecutor)
    (hr : execAssign fuel name e st = .done st') : KeptOutside st st' := by
  unfold execAssign at hr
  cases he : evalExpr fuel st.heap st.currentScope e with
  | thrown w => simp [he] at hr
  | outOfFuel => simp [he] at hr
  | trapped => simp [he] at hr
  | ok v =>
    simp only [he] at hr
    cases ha : Scope.assign fuel st.heap st.currentScope name v with
    | outOfFuel => simp [ha] at hr
    | trapped => simp [ha] at hr
    | done h' =>
      have hs := Scope.assign_done_shape name v fuel st.heap st.currentScope h' ha
      have hst : st' = { st with heap := h' } := by
        split at hr <;> simp [ha] at hr <;> exact hr.symm
      subst hst
      exact ⟨rfl, rfl, le_of_eq hs.1.symm, fun a _ _ => hs.2 a⟩
    | thrown w h' =>
      have hh := Scope.assign_thrown_heap name v fuel st.heap st.currentScope w h' ha
      subst hh
      split at hr
      · simp [ha] at hr
      · simp only [ha, Run.done.injEq] at hr
        subst hr
        have hs := Scope.define_shape st.heap st.currentScope name v
        exact ⟨rfl, rfl, le_of_eq hs.1.symm, fun a _ hne => hs.2 a hne⟩

theorem restoreScope_done (oldScope : Nat) (r : Run ASTExecutor) (st' : ASTExecutor)
    (hr : restoreScope oldScope r = .done st') :
    ∃ st2, r = .done st2 ∧ st' = { st2 with currentScope := oldScope } := by
  cases r with
  | done s => exact ⟨s, rfl, by simpa [restoreScope] using hr.symm⟩
  | thrown w s => simp [restoreScope] at hr
  | outOfFuel => simp [restoreScope] at hr
  | trapped => simp [restoreScope] at hr

/-- A body that ran in a pushed scope and kept the frames outside it, followed
by the restore, keeps all the frames of the state before the push. -/
theorem scoped_kept (st st2 : ASTExecutor) (hk : KeptOutside (pushScope st) st2) :
    KeptAll st { st2 with currentScope := st.currentScope } := by
  obtain ⟨-, g, l, f⟩ := hk
  refine ⟨rfl, g, ?_, ?_⟩
  · have : st.heap.length ≤ (pushScope st).heap.length := by simp [pushScope]
    exact le_trans this l
  · intro a ha
    have h1 := f a (by simp [pushScope]; omega) (by simp [pushScope]; omega)
    rw [h1]
    simp only [frameShape, pushScope]
    rw [List.getElem?_append_left ha]

/-- Every statement that returns keeps the current and the global scope and the
shape of all frames but the current one; the scoped statements keep the shape
of the current one too. -/
theorem exec_kept (invoke : Dispatcher) :
    ∀ fuel : Nat,
      (∀ stmts st st', execBlock invoke fuel stmts st = .done st' → KeptOutside st st') ∧
      (∀ stmt st st', execStmt invoke fuel stmt st = .done st' → KeptOutside st st') ∧
      (∀ body st st', execBody invoke fuel body st = .done st' → KeptAll st st') ∧
      (∀ c b e st st', execIf invoke fuel c b e st = .done st' → KeptAll st st') ∧
      (∀ c b st st', execLoop invoke fuel c b st = .done st' → KeptAll st st') := by
  intro fuel
  induction fuel with
  | zero =>
    refine ⟨?_, ?_, ?_, ?_, ?_⟩ <;> intros <;> rename_i hr <;>
      simp [execBlock, execStmt, execBody, execIf, execLoop] at hr
  | succ n ih =>
    obtain ⟨ihBlock, ihStmt, ihBody, ihIf, ihLoop⟩ := ih
    refine ⟨?_, ?_, ?_, ?_, ?_⟩
    · intro stmts st st' hr
      cases stmts with
      | nil =>
        simp only [execBlock, Run.done.injEq] at hr
        subst hr
        exact KeptOutside.same _
      | cons item rest =>
        simp only [execBlock] at hr
        cases h1 : execStmt invoke n item st with
        | done st1 =>
          simp only [h1] at hr
          exact (ihStmt item st st1 h1).andThen (ihBlock rest st1 st' hr)
        | thrown w s => simp [h1] at hr
        | outOfFuel => simp [h1] at hr
        | trapped => simp [h1] at hr
    · intro stmt st st' hr
      cases stmt with
      | IF c b e => exact (ihIf c b e st st' (by simpa [execStmt] using hr)).outside
      | LOOP c b => exact (ihLoop c b st st' (by simpa [execStmt] using hr)).outside
      | PRINT e => exact (execPrint_kept n e st st' (by simpa [execStmt] using hr)).outside
      | ASSIGNMENT t v => exact execAssign_kept n t v st st' (by simpa [execStmt] using hr)
      | AUTO_CALL f args =>
        exact (execAuto_kept invoke n f args st st' (by simpa [execStmt] using hr)).outside
      | BLOCK stmts =>
        simp only [execStmt] at hr
        obtain ⟨st2, h2, rfl⟩ := restoreScope_done _ _ _ hr
        exact (scoped_kept st st2 (ihBlock stmts _ st2 h2)).outside
      | OTHER t =>
        simp only [execStmt] at hr
        repeat' split at hr
        all_goals first
          | (cases hr; exact KeptOutside.same _)
          | (exact absurd hr (by simp))
    · intro body st st' hr
      cases body with
      | BLOCK stmts =>
        simp only [execBody] at hr
        obtain ⟨st2, h2, rfl⟩ := restoreScope_done _ _ _ hr
        exact scoped_kept st st2 (ihBlock stmts _ st2 h2)
      | OTHER t =>
        simp only [execBody] at hr
        split at hr
        · simp at hr
        · obtain ⟨st2, h2, rfl⟩ := restoreScope_done _ _ _ hr
          exact scoped_kept st st2 (ihStmt _ _ st2 h2)
      | IF c b e =>
        simp only [execBody] at hr
        obtain ⟨st2, h2, rfl⟩ := restoreScope_done _ _ _ hr
        exact scoped_kept st st2 (ihStmt _ _ st2 h2)
      | LOOP c b =>
        simp only [execBody] at hr
        obtain ⟨st2, h2, rfl⟩ := restoreScope_done _ _ _ hr
        exact scoped_kept st st2 (ihStmt _ _ st2 h2)
      | PRINT e =>
        simp only [execBody] at hr
        obtain ⟨st2, h2, rfl⟩ := restoreScope_done _ _ _ hr
        exact scoped_kept st st2 (ihStmt _ _ st2 h2)
      | ASSIGNMENT t v =>
        simp only [execBody] at hr
        obtain ⟨st2, h2, rfl⟩ := restoreScope_done _ _ _ hr
        exact scoped_kept st st2 (ihStmt _ _ st2 h2)
      | AUTO_CALL f args =>
        simp only [execBody] at hr
        obtain ⟨st2, h2, rfl⟩ := restoreScope_done _ _ _ hr
        exact scoped_kept st st2 (ihStmt _ _ st2 h2)
    · intro c b e st st' hr
      simp only [execIf] at hr
      cases hc : evalExpr n st.heap st.currentScope c with
      | thrown w => simp [hc] at hr
      | outOfFuel => simp [hc] at hr
      | trapped => simp [hc] at hr
      | ok cond =>
        simp only [hc] at hr
        by_cases ht : isTrue cond = true
        · simp only [ht, if_true] at hr
          exact ihBody b st st' hr
        · simp only [ht] at hr
          cases e with
          | none =>
            simp only [Bool.false_eq_true, if_false, Run.done.injEq] at hr
            subst hr
            exact KeptAll.unchanged _
          | some eb =>
            simp only [Bool.false_eq_true, if_false] at hr
            exact ihBody eb st st' hr
    · intro c b st st' hr
      simp only [execLoop] at hr
      cases hc : evalExpr n st.heap st.currentScope c with
      | thrown w => simp [hc] at hr
      | outOfFuel => simp [hc] at hr
      | trapped => simp [hc] at hr
      | ok cond =>
        simp only [hc] at hr
        by_cases ht : isTrue cond = true
        · simp only [ht, if_true] at hr
          cases hb : execBody invoke n b st with
          | done st1 =>
            simp only [hb] at hr
            exact (ihBody b st st1 hb).followedBy (ihLoop c b st1 st' hr)
          | thrown w s => simp [hb] at hr
          | outOfFuel => simp [hb] at hr
          | trapped => simp [hb] at hr
        · simp only [ht, Bool.false_eq_true, if_false, Run.done.injEq] at hr
          subst hr
          exact KeptAll.unchanged _

theorem Vars.find_isSome_iff (name : String) (vars : Vars) :
    (Vars.find name vars).isSome = true ↔ name ∈ Vars.names vars := by
  induction vars with
  | nil => simp [Vars.find, Vars.names]
  | cons kv rest ih =>
    obtain ⟨k, v⟩ := kv
    by_cases hk : k = name
    · simp [Vars.find, Vars.names, hk]
    · have hk' : ¬ name = k := fun e => hk e.symm
      simp only [Vars.names] at ih
      simp [Vars.find, Vars.names, hk, hk', ih]

theorem existsLocal_of_shape (h h' : Heap) (a : Nat) (name : String)
    (hs : frameShape h' a = frameShape h a) :
    Scope.existsLocal h' a name = Scope.existsLocal h a name := by
  unfold frameShape at hs
  unfold Scope.existsLocal
  cases h1 : h[a]? with
  | none =>
    cases h2 : h'[a]? with
    | none => rfl
    | some sc' => simp [h1, h2] at hs
  | some sc =>
    cases h2 : h'[a]? with
    | none => simp [h1, h2] at hs
    | some sc' =>
      simp only [h1, h2, Option.map_some', Option.some.injEq, Prod.mk.injEq] at hs
      rw [Bool.eq_iff_iff, Vars.find_isSome_iff, Vars.find_isSome_iff, hs.1]

theorem IsChain.of_shape {h h' : Heap} {a : Nat} {l : List Nat} (hc : IsChain h a l)
    (hs : ∀ g ∈ l, frameShape h' g = frameShape h g) : IsChain h' a l := by
  induction hc with
  | root a sc ha hp =>
    have h1 := hs a (List.mem_cons_self _ _)
    unfold frameShape at h1
    cases h2 : h'[a]? with
    | none => simp [ha, h2] at h1
    | some sc' =>
      simp only [ha, h2, Option.map_some', Option.some.injEq, Prod.mk.injEq] at h1
      exact .root a sc' h2 (h1.2.trans hp)
  | step a p sc t ha hp hl ih =>
    have h1 := hs a (List.mem_cons_self _ _)
    unfold frameShape at h1
    cases h2 : h'[a]? with
    | none => simp [ha, h2] at h1
    | some sc' =>
      simp only [ha, h2, Option.map_some', Option.some.injEq, Prod.mk.injEq] at h1
      exact .step a p sc' t h2 (h1.2.trans hp) (ih (fun g hg => hs g (List.mem_cons_of_mem _ hg)))

/-- C5: a statement of any kind, nested to any depth, that returns normally
leaves the current-scope pointer at the frame that was current before it. -/
theorem C5_current_scope_restored (invoke : Dispatcher) (fuel : Nat) (stmt : Stmt)
    (st st' : ASTExecutor) (hr : execStmt invoke fuel stmt st = .done st') :
    st'.currentScope = st.currentScope :=
  ((exec_kept invoke fuel).2.1 stmt st st' hr).1

theorem C5_current_scope_restored_witness :
    execStmt silent 24 nestedProgram sample3 =
        .done (execStmt silent 24 nestedProgram sample3).state ∧
    (execStmt silent 24 nestedProgram sample3).state.out = ["s", "1"] ∧
    (execStmt silent 24 nestedProgram sample3).state.currentScope = sample3.currentScope :=
  ⟨by rfl, by decide,
    C5_current_scope_restored silent 24 nestedProgram sample3 _ (by rfl)⟩

/-- C6: a `BLOCK`, `IF` or `LOOP` statement that returns normally leaves every
frame that existed before it with the names (and the parent) it had: the
chain from the current scope is the same chain afterwards and each of its
frames holds a name afterwards iff it held it before. -/
theorem C6_scoped_names_kept (invoke : Dispatcher) (fuel : Nat) (stmt : Stmt)
    (st st' : ASTExecutor)
    (hkind : (∃ stmts, stmt = .BLOCK stmts) ∨ (∃ c b e, stmt = .IF c b e) ∨
      (∃ c b, stmt = .LOOP c b))
    (hr : execStmt invoke fuel stmt st = .done st') :
    (∀ a, a < st.heap.length → frameShape st'.heap a = frameShape st.heap a) ∧
    (∀ l, IsChain st.heap st.currentScope l →
      IsChain st'.heap st'.currentScope l ∧
      ∀ g ∈ l, ∀ name, Scope.existsLocal st'.heap g name = Scope.existsLocal st.heap g name) := by
  have hall : KeptAll st st' := by
    cases fuel with
    | zero => simp [execStmt] at hr
    | succ n =>
      obtain ⟨ihBlock, -, -, ihIf, ihLoop⟩ := exec_kept invoke n
      rcases hkind with ⟨stmts, rfl⟩ | ⟨c, b, e, rfl⟩ | ⟨c, b, rfl⟩
      · simp only [execStmt] at hr
        obtain ⟨st2, h2, rfl⟩ := restoreScope_done _ _ _ hr
        exact scoped_kept st st2 (ihBlock stmts _ st2 h2)
      · exact ihIf c b e st st' (by simpa [execStmt] using hr)
      · exact ihLoop c b st st' (by simpa [execStmt] using hr)
  obtain ⟨hcur, -, -, hshape⟩ := hall
  refine ⟨hshape, fun l hc => ?_⟩
  have hmem : ∀ g ∈ l, frameShape st'.heap g = frameShape st.heap g :=
    fun g hg => hshape g (hc.mem_lt g hg)
  refine ⟨?_, fun g hg name => existsLocal_of_shape _ _ g name (hmem g hg)⟩
  rw [hcur]
  exact hc.of_shape hmem

theorem C6_scoped_names_kept_witness :
    execStmt silent 24 nestedProgram sample3 =
        .done (execStmt silent 24 nestedProgram sample3).state ∧
    (∀ a, a < sample3.heap.length →
      frameShape (execStmt silent 24 nestedProgram sample3).state.heap a =
        frameShape sample3.heap a) ∧
    (∀ l, IsChain sample3.heap sample3.currentScope l →
      IsChain (execStmt silent 24 nestedProgram sample3).state.heap
        (execStmt silent 24 nestedProgram sample3).state.currentScope l ∧
      ∀ g ∈ l, ∀ name,
        Scope.existsLocal (execStmt silent 24 nestedProgram sample3).state.heap g name =
          Scope.existsLocal sample3.heap g name) :=
  ⟨by rfl,
    C6_scoped_names_kept silent 24 nestedProgram sample3 _
      (Or.inl ⟨_, rfl⟩) (by rfl)⟩

/-! ## Claims on execute -/

/-- C7, as stated, fails: on a fresh evaluator the root block `[x = 5]` returns
normally and the global frame holds `x` afterwards, no frame having been
created, and a later `execute` of the root block `[print x]` writes `5`. -/
theorem C7_root_block_counterexample :
    execute silent 3 (.BLOCK [.ASSIGNMENT "x" (.NUMBER (.fin 5))]) ASTExecutor.new =
        .done afterTopLevelAssign ∧
    afterTopLevelAssign.heap.length = ASTExecutor.new.heap.length ∧
    frameShape afterTopLevelAssign.heap afterTopLevelAssign.globalScope ≠
      frameShape ASTExecutor.new.heap ASTExecutor.new.globalScope ∧
    execute silent 3 (.BLOCK [.PRINT (.IDENTIFIER "x")]) afterTopLevelAssign =
        .done { afterTopLevelAssign with out := ["5"] } := by
  refine ⟨by rfl, by rfl, by decide, by rfl⟩

/-- A root block that is one assignment to a name no frame of the chain holds
defines the name in the current frame, creates no frame, and a later `execute`
that prints the name writes the assigned value. -/
theorem root_assignment_persists (invoke : Dispatcher) (st : ASTExecutor)
    (l : List Nat) (name : String) (e : Expr) (v : Value) (fuel : Nat)
    (hc : IsChain st.heap st.currentScope l) (hfuel : l.length ≤ fuel)
    (hv : evalExpr fuel st.heap st.currentScope e = .ok v)
    (hall : ∀ g ∈ l, Scope.existsLocal st.heap g name = false) :
    execute invoke (fuel + 2) (.BLOCK [.ASSIGNMENT name e]) st =
        .done { st with heap := Scope.define st.heap st.currentScope name v } ∧
    (Scope.define st.heap st.currentScope name v).length = st.heap.length ∧
    Scope.existsLocal (Scope.define st.heap st.currentScope name v) st.currentScope name = true ∧
    execute invoke (fuel + 2) (.BLOCK [.PRINT (.IDENTIFIER name)])
        { st with heap := Scope.define st.heap st.currentScope name v } =
      .done { st with heap := Scope.define st.heap st.currentScope name v,
                      out := st.out ++ [v.toString] } := by
  have hassign := execAssign_absent hc name e v fuel hfuel hv hall
  obtain ⟨t, rfl⟩ := hc.head_mem
  have hmem := hc.mem_lt st.currentScope (List.mem_cons_self _ _)
  obtain ⟨sc, hsc⟩ : ∃ sc, st.heap[st.currentScope]? = some sc :=
    ⟨_, List.getElem?_eq_getElem hmem⟩
  have hdef : Scope.define st.heap st.currentScope name v =
      st.heap.set st.currentScope { sc with vars := Vars.set name v sc.vars } := by
    simp [Scope.define, hsc]
  have hself : (Scope.define st.heap st.currentScope name v)[st.currentScope]? =
      some { sc with vars := Vars.set name v sc.vars } := by
    rw [hdef, List.getElem?_set_self hmem]
  obtain ⟨n, rfl⟩ : ∃ n, fuel = n + 1 := by
    cases fuel with
    | zero => simp at hfuel
    | succ n => exact ⟨n, rfl⟩
  refine ⟨?_, ?_, ?_, ?_⟩
  · simp [execute, execBlock, execStmt, hassign]
  · simp [hdef]
  · simp [Scope.existsLocal, hself, Vars.find_set_self]
  · simp [execute, execBlock, execStmt, execPrint, evalExpr, Scope.get, hself,
      Vars.find_set_self, IO_print]

/-- C8, the code at the failing input: a fault inside a nested block is caught
by `execute`, which returns with the nested frame still current; a later
`execute` runs in that frame and reads the name `y` the nested block
assigned. -/
theorem C8_fault_leaves_nested_scope_current :
    execute silent 8 faultInNestedBlock ASTExecutor.new = .done afterFaultInNestedBlock ∧
    afterFaultInNestedBlock.currentScope ≠ afterFaultInNestedBlock.globalScope ∧
    execute silent 3 (.BLOCK [.PRINT (.IDENTIFIER "y")]) afterFaultInNestedBlock =
        .done { afterFaultInNestedBlock with out := ["1"] } := by
  refine ⟨by rfl, by decide, by rfl⟩

/-- C9: strict truthiness.  With the condition evaluating to `cond`: when
`cond` is `BOOL true`, `IF` runs its then-body (in a new scope) and `LOOP` runs
its body and then loops; for every other `cond`, `IF` without else-body does
nothing, `IF` with an else-body runs the else-body (in a new scope), and
`LOOP` returns at once with the state unchanged. -/
theorem C9_strict_truthiness (invoke : Dispatcher) (fuel : Nat) (c : Expr) (body : Stmt)
    (st : ASTExecutor) (cond : Value)
    (hc : evalExpr fuel st.heap st.currentScope c = .ok cond) :
    (cond = .BOOL true →
      (∀ e, execStmt invoke (fuel + 2) (.IF c body e) st = execBody invoke fuel body st) ∧
      execStmt invoke (fuel + 2) (.LOOP c body) st =
        (match execBody invoke fuel body st with
         | .done st1 => execLoop invoke fuel c body st1
         | r => r)) ∧
    (cond ≠ .BOOL true →
      execStmt invoke (fuel + 2) (.IF c body none) st = .done st ∧
      (∀ e, execStmt invoke (fuel + 2) (.IF c body (some e)) st = execBody invoke fuel e st) ∧
      execStmt invoke (fuel + 2) (.LOOP c body) st = .done st) := by
  constructor
  · intro ht
    subst ht
    refine ⟨fun e => ?_, ?_⟩
    · simp [execStmt, execIf, hc, isTrue]
    · simp [execStmt, execLoop, hc, isTrue]
  · intro hf
    have hfalse : isTrue cond = false := by
      cases cond with
      | BOOL b =>
        cases b with
        | true => exact absurd rfl hf
        | false => rfl
      | LONG v => rfl
      | DOUBLE v => rfl
      | STRING v => rfl
      | NONE => rfl
    refine ⟨?_, fun e => ?_, ?_⟩
    · simp [execStmt, execIf, hc, hfalse]
    · simp [execStmt, execIf, hc, hfalse]
    · simp [execStmt, execLoop, hc, hfalse]

theorem C9_strict_truthiness_witness :
    execStmt silent 3 (.IF (.NUMBER (.fin 1)) (.PRINT (.STRING "then")) none) ASTExecutor.new =
        .done ASTExecutor.new ∧
    execStmt silent 3 (.IF (.NUMBER (.fin 1)) (.PRINT (.STRING "then"))
        (some (.PRINT (.STRING "else")))) ASTExecutor.new =
      execBody silent 1 (.PRINT (.STRING "else")) ASTExecutor.new ∧
    execStmt silent 3 (.LOOP (.NUMBER (.fin 1)) (.PRINT (.STRING "then"))) ASTExecutor.new =
        .done ASTExecutor.new :=
  have h := (C9_strict_truthiness silent 1 (.NUMBER (.fin 1)) (.PRINT (.STRING "then"))
    ASTExecutor.new (.LONG 1) (by decide)).2 (by decide)
  ⟨h.1, h.2.1 _, h.2.2⟩

/-! ## The counting loop: proofs -/

theorem wrap64_of_inLong (x : Int) (hx : inLong x) : wrap64 x = x := by
  unfold inLong at hx
  unfold wrap64
  have h1 : (0 : Int) ≤ x + 2 ^ 63 := by omega
  have h2 : x + 2 ^ 63 < 2 ^ 64 := by omega
  rw [Int.emod_eq_of_lt h1 h2]
  omega

theorem castLong_intCast (b : Int) (hb : inLong b) : castLong (.fin (b : ℚ)) = b := by
  simp [castLong, hb]

theorem eqCastLong_intCast (b : Int) (hb : inLong b) : eqCastLong (.fin (b : ℚ)) = true := by
  simp [eqCastLong, castLong_intCast b hb]

theorem evalExpr_number_int (fuel : Nat) (h : Heap) (cur : Nat) (b : Int) (hb : inLong b) :
    evalExpr fuel h cur (.NUMBER (.fin (b : ℚ))) = .ok (.LONG b) := by
  simp [evalExpr, eqCastLong_intCast b hb, castLong_intCast b hb]

theorem evalBinOp_lt (l r : Int) :
    evalBinOp (.LONG l) "<" (.LONG r) = .ok (.BOOL (decide (l < r))) := by
  simp [evalBinOp]

theorem evalBinOp_add (l r : Int) :
    evalBinOp (.LONG l) "+" (.LONG r) = .ok (.LONG (wrap64 (l + r))) := by
  simp [evalBinOp]


theorem evalExpr_one (fuel : Nat) (h : Heap) (cur : Nat) :
    evalExpr fuel h cur (.NUMBER (.fin 1)) = .ok (.LONG 1) := by
  have := evalExpr_number_int fuel h cur 1 (by decide)
  simpa using this

/-- In a frame just pushed, a lookup goes to the parent frame. -/
theorem get_in_pushed (fuel : Nat) (h : Heap) (c : Nat) (sc : Scope) (name : String) (v : Value)
    (hsc : h[c]? = some sc) (hv : Vars.find name sc.vars = some v) :
    Scope.get (fuel + 2) (h ++ [⟨[], some c⟩]) h.length name = .ok v := by
  have hlt : c < h.length := (List.getElem?_eq_some_iff.mp hsc).1
  have h1 : (h ++ [(⟨[], some c⟩ : Scope)])[h.length]? = some ⟨[], some c⟩ :=
    List.getElem?_concat_length h _
  have h2 : (h ++ [(⟨[], some c⟩ : Scope)])[c]? = some sc := by
    rw [List.getElem?_append_left hlt, hsc]
  simp [Scope.get, h1, h2, hv, Vars.find]

/-- In a frame just pushed, an update of a name the parent holds goes to the
parent frame. -/
theorem assign_in_pushed (fuel : Nat) (h : Heap) (c : Nat) (sc : Scope) (name : String)
    (v w : Value) (hsc : h[c]? = some sc) (hv : Vars.find name sc.vars = some v) :
    Scope.assign (fuel + 2) (h ++ [⟨[], some c⟩]) h.length name w =
      .done (Scope.define h c name w ++ [⟨[], some c⟩]) := by
  have hlt : c < h.length := (List.getElem?_eq_some_iff.mp hsc).1
  have h1 : (h ++ [(⟨[], some c⟩ : Scope)])[h.length]? = some ⟨[], some c⟩ :=
    List.getElem?_concat_length h _
  have h2 : (h ++ [(⟨[], some c⟩ : Scope)])[c]? = some sc := by
    rw [List.getElem?_append_left hlt, hsc]
  simp [Scope.assign, h1, h2, hv, Vars.find, Scope.define, hsc, List.set_append_left _ _ hlt]

theorem eqCastLong_one : eqCastLong (.fin 1) = true := by decide

theorem castLong_one : castLong (.fin 1) = 1 := by decide

/-- One iteration of the counting loop. -/
theorem count_iteration (invoke : Dispatcher) (fuel : Nat) (st : ASTExecutor) (sc : Scope)
    (a : Int) (hsc : st.heap[st.currentScope]? = some sc)
    (hi : Vars.find "i" sc.vars = some (.LONG a)) (ha : inLong (a + 1)) :
    execBody invoke (fuel + 6) countLoopBody st =
      .done { st with
        heap := Scope.define st.heap st.currentScope "i" (.LONG (a + 1)) ++
          [⟨[], some st.currentScope⟩],
        out := st.out ++ [(Value.LONG a).toString] } := by
  have hg := get_in_pushed fuel st.heap st.currentScope sc "i" (.LONG a) hsc hi
  have hg1 := get_in_pushed (fuel + 1) st.heap st.currentScope sc "i" (.LONG a) hsc hi
  have hs := assign_in_pushed fuel st.heap st.currentScope sc "i" (.LONG a) (.LONG (a + 1)) hsc hi
  have hex : Scope.existsLocal (st.heap ++ [⟨[], some st.currentScope⟩]) st.heap.length "i"
      = false := by
    simp [Scope.existsLocal, List.getElem?_concat_length, Vars.find]
  simp [execBody, countLoopBody, execBlock, execStmt, execPrint, execAssign, evalExpr, pushScope,
    restoreScope, IO_print, hg, hg1, hs, hex, eqCastLong_one, castLong_one, evalBinOp_add,
    wrap64_of_inLong _ ha]

theorem Vars.set_set (name : String) (v w : Value) (vars : Vars) :
    Vars.set name w (Vars.set name v vars) = Vars.set name w vars := by
  induction vars with
  | nil => simp [Vars.set]
  | cons kv rest ih =>
    obtain ⟨k, u⟩ := kv
    by_cases hk : k = name
    · simp [Vars.set, hk]
    · simp [Vars.set, hk, ih]

theorem Scope.define_define (h : Heap) (c : Nat) (name : String) (v w : Value) :
    Scope.define (Scope.define h c name v) c name w = Scope.define h c name w := by
  cases hsc : h[c]? with
  | none => simp [Scope.define, hsc]
  | some sc =>
    have hlt : c < h.length := (List.getElem?_eq_some_iff.mp hsc).1
    simp [Scope.define, hsc, List.getElem?_set_self hlt, List.set_set, Vars.set_set]

theorem Scope.define_append (h t : Heap) (c : Nat) (name : String) (v : Value)
    (hlt : c < h.length) :
    Scope.define (h ++ t) c name v = Scope.define h c name v ++ t := by
  have hsome : h[c]? = some h[c] := List.getElem?_eq_getElem hlt
  simp [Scope.define, List.getElem?_append_left hlt, hsome, List.set_append_left _ _ hlt]

theorem Scope.define_same (h : Heap) (c : Nat) (sc : Scope) (name : String) (v : Value)
    (hsc : h[c]? = some sc) (hv : Vars.find name sc.vars = some v) :
    Scope.define h c name v = h := by
  have hlt : c < h.length := (List.getElem?_eq_some_iff.mp hsc).1
  have hget : h[c] = sc := (List.getElem?_eq_some_iff.mp hsc).2
  simp only [Scope.define, hsc, Vars.set_of_find name v sc.vars hv]
  apply List.ext_getElem?
  intro j
  by_cases hj : j = c
  · subst hj
    rw [List.getElem?_set_self hlt, hsc]
  · rw [List.getElem?_set_ne (Ne.symm hj)]

theorem Scope.define_find (h : Heap) (c : Nat) (sc : Scope) (name : String) (v : Value)
    (hsc : h[c]? = some sc) :
    ∃ sc', (Scope.define h c name v)[c]? = some sc' ∧ Vars.find name sc'.vars = some v := by
  have hlt : c < h.length := (List.getElem?_eq_some_iff.mp hsc).1
  refine ⟨{ sc with vars := Vars.set name v sc.vars }, ?_, Vars.find_set_self name v sc.vars⟩
  simp [Scope.define, hsc, List.getElem?_set_self hlt]

/-- The counting loop, `n` iterations from `i = a`. -/
theorem nearestDouble_of_lt (n : Int) (hn : n.natAbs < 2 ^ 53) : nearestDouble n = n := by
  have hs : excessBits 1100 n.natAbs = 0 := by
    rw [show (1100 : Nat) = 1099 + 1 from rfl, excessBits, if_pos hn]
  simp only [nearestDouble, hs, pow_zero, Nat.div_one, Nat.mod_one, Nat.mul_zero, Nat.mul_one,
    Nat.lt_one_iff, if_true]
  split <;> omega

theorem count_loop (invoke : Dispatcher) (b : Int) (hb : inLong b)
    (hexact : nearestDouble b = b) :
    ∀ (n : Nat) (st : ASTExecutor) (sc : Scope) (a : Int) (fuel : Nat),
      st.heap[st.currentScope]? = some sc → Vars.find "i" sc.vars = some (.LONG a) →
      inLong a → n = (b - a).toNat → n + 7 ≤ fuel →
      execLoop invoke fuel (countLoopCond b) countLoopBody st = .done (counted st a n) := by
  intro n
  induction n with
  | zero =>
    intro st sc a fuel hsc hi ha hn hfuel
    obtain ⟨f, rfl⟩ : ∃ f, fuel = f + 2 := ⟨fuel - 2, by omega⟩
    have hle : ¬ a < b := by omega
    have hget : Scope.get (f + 1) st.heap st.currentScope "i" = .ok (.LONG a) := by
      simp [Scope.get, hsc, hi]
    have hsame := Scope.define_same st.heap st.currentScope sc "i" (.LONG a) hsc hi
    simp [execLoop, countLoopCond, intLiteral, hexact, evalExpr, hget, eqCastLong_intCast b hb,
      castLong_intCast b hb, evalBinOp_lt, isTrue, hle, counted, hsame]
  | succ n ih =>
    intro st sc a fuel hsc hi ha hn hfuel
    obtain ⟨f, rfl⟩ : ∃ f, fuel = f + 7 := ⟨fuel - 7, by omega⟩
    have hlt : a < b := by omega
    have hc : st.currentScope < st.heap.length := (List.getElem?_eq_some_iff.mp hsc).1
    have ha1 : inLong (a + 1) := by
      unfold inLong at ha hb ⊢
      omega
    have hget : Scope.get (f + 6) st.heap st.currentScope "i" = .ok (.LONG a) := by
      simp [Scope.get, hsc, hi]
    have hiter := count_iteration invoke f st sc a hsc hi ha1
    obtain ⟨sc1, hsc1, hi1⟩ :=
      Scope.define_find st.heap st.currentScope sc "i" (.LONG (a + 1)) hsc
    have hlen : st.currentScope < (Scope.define st.heap st.currentScope "i" (.LONG (a + 1))).length :=
      (List.getElem?_eq_some_iff.mp hsc1).1
    have hrec := ih
      { st with
        heap := Scope.define st.heap st.currentScope "i" (.LONG (a + 1)) ++
          [⟨[], some st.currentScope⟩],
        out := st.out ++ [(Value.LONG a).toString] }
      sc1 (a + 1) (f + 6)
      (by simp only; rw [List.getElem?_append_left hlen]; exact hsc1)
      hi1 ha1 (by omega) (by omega)
    have hstep : execLoop invoke (f + 7) (countLoopCond b) countLoopBody st =
        execLoop invoke (f + 6) (countLoopCond b) countLoopBody
          { st with
            heap := Scope.define st.heap st.currentScope "i" (.LONG (a + 1)) ++
              [⟨[], some st.currentScope⟩],
            out := st.out ++ [(Value.LONG a).toString] } := by
      simp [execLoop, countLoopCond, intLiteral, hexact, evalExpr, hget, eqCastLong_intCast b hb,
        castLong_intCast b hb, evalBinOp_lt, isTrue, hlt, hiter]
    rw [hstep, hrec]
    have hheap : Scope.define
          (Scope.define st.heap st.currentScope "i" (.LONG (a + 1)) ++
            [⟨[], some st.currentScope⟩]) st.currentScope "i" (.LONG (a + 1 + (n : Int))) ++
          List.replicate n ⟨[], some st.currentScope⟩ =
        Scope.define st.heap st.currentScope "i" (.LONG (a + ((n + 1 : Nat) : Int))) ++
          List.replicate (n + 1) ⟨[], some st.currentScope⟩ := by
      rw [Scope.define_append _ _ _ _ _ hlen, Scope.define_define, List.append_assoc,
        List.replicate_succ]
      have : a + 1 + (n : Int) = a + ((n + 1 : Nat) : Int) := by push_cast; ring
      rw [this]
      rfl
    have hout : st.out ++ [(Value.LONG a).toString] ++
          (List.range n).map (fun (k : Nat) => (Value.LONG (a + 1 + (k : Int))).toString) =
        st.out ++ (List.range (n + 1)).map (fun (k : Nat) => (Value.LONG (a + (k : Int))).toString) := by
      rw [List.range_succ_eq_map]
      simp only [List.map_cons, List.map_map, List.append_assoc, List.singleton_append,
        Nat.cast_zero, add_zero]
      congr 2
      apply List.map_congr_left
      intro k _
      simp only [Function.comp, Nat.succ_eq_add_one]
      congr 2
      push_cast
      ring
    simp only [counted, hheap, hout]

/-- C10, as stated, fails.  With `i = 2^53` and the bound `b = 2^53 + 1`,
which no double holds, the literal is the double `2^53`: the condition is
false, the loop writes nothing and leaves `i = 2^53`, where the claim has it
write `2^53` and leave `i = b`.  With `i = 0` and the bound `b = 2^63`, the
literal is a Float: the condition is Null, the loop writes nothing and leaves
`i = 0`, where the claim has it write `0` first. -/
theorem C10_counting_loop_counterexample :
    (inLong 9007199254740992 ∧ inLong 9007199254740993 ∧
      (9007199254740992 : Int) < 9007199254740993 ∧
      (∀ fuel, execStmt silent (fuel + 3) (countLoop 9007199254740993) counterAtLimit =
        .done counterAtLimit) ∧
      counterAtLimit.out = [] ∧
      Scope.get 1 counterAtLimit.heap counterAtLimit.currentScope "i" =
        .ok (.LONG 9007199254740992)) ∧
    ((0 : Int) < 9223372036854775808 ∧
      (∀ fuel, execStmt silent (fuel + 3) (countLoop 9223372036854775808) counterStart =
        .done counterStart) ∧
      counterStart.out = [] ∧
      Scope.get 1 counterStart.heap counterStart.currentScope "i" = .ok (.LONG 0)) := by
  have h1 : nearestDouble 9007199254740993 = 9007199254740992 := by decide
  have h2 : nearestDouble 9223372036854775808 = 9223372036854775808 := by decide
  have e1 : eqCastLong (.fin ((9007199254740992 : Int) : ℚ)) = true := by decide
  have c1 : castLong (.fin ((9007199254740992 : Int) : ℚ)) = 9007199254740992 := by decide
  have e2 : eqCastLong (.fin ((9223372036854775808 : Int) : ℚ)) = false := by decide
  have g1 : ∀ fuel, Scope.get (fuel + 1) counterAtLimit.heap counterAtLimit.currentScope "i" =
      .ok (.LONG 9007199254740992) := fun _ => rfl
  have g2 : ∀ fuel, Scope.get (fuel + 1) counterStart.heap counterStart.currentScope "i" =
      .ok (.LONG 0) := fun _ => rfl
  refine ⟨⟨by decide, by decide, by decide, ?_, rfl, g1 0⟩, by decide, ?_, rfl, g2 0⟩
  · intro fuel
    have hcond : evalExpr (fuel + 1) counterAtLimit.heap counterAtLimit.currentScope
        (countLoopCond 9007199254740993) = .ok (.BOOL false) := by
      simp only [countLoopCond, intLiteral, h1, evalExpr, e1, c1, g1]
      decide
    simp only [execStmt, countLoop]
    unfold execLoop
    simp only [hcond]
    rfl
  · intro fuel
    have hcond : evalExpr (fuel + 1) counterStart.heap counterStart.currentScope
        (countLoopCond 9223372036854775808) = .ok .NONE := by
      simp only [countLoopCond, intLiteral, h2, evalExpr, e2, g2]
      rfl
    simp only [execStmt, countLoop]
    unfold execLoop
    simp only [hcond]
    rfl

/-- C10, amended: the counting loop `LOOP (i < b) [PRINT i, i = i + 1]`, with
`a` and `b` in the range of `long`, `b` a value that a double holds exactly,
started with `i = a` in the current frame, returns for every large enough
budget; it writes the renderings of `a, a+1, ..., b-1` in order (nothing when
`b ≤ a`), the current scope is the one it started in, and `i` is bound to
`max a b` in that frame. -/
theorem C10_counting_loop (invoke : Dispatcher) (st : ASTExecutor) (sc : Scope) (a b : Int)
    (fuel : Nat) (hsc : st.heap[st.currentScope]? = some sc)
    (hi : Vars.find "i" sc.vars = some (.LONG a)) (ha : inLong a) (hb : inLong b)
    (hexact : nearestDouble b = b)
    (hfuel : (b - a).toNat + 8 ≤ fuel) :
    execStmt invoke fuel (countLoop b) st = .done (counted st a (b - a).toNat) ∧
    (counted st a (b - a).toNat).out =
      st.out ++ (List.range (b - a).toNat).map (fun (k : Nat) => toString (a + (k : Int))) ∧
    (counted st a (b - a).toNat).currentScope = st.currentScope ∧
    (∃ sc', (counted st a (b - a).toNat).heap[st.currentScope]? = some sc' ∧
      Vars.find "i" sc'.vars = some (.LONG (max a b))) ∧
    Scope.get fuel (counted st a (b - a).toNat).heap st.currentScope "i" =
      .ok (.LONG (max a b)) := by
  obtain ⟨f, rfl⟩ : ∃ f, fuel = f + 1 := ⟨fuel - 1, by omega⟩
  have hrun := count_loop invoke b hb hexact (b - a).toNat st sc a f hsc hi ha rfl (by omega)
  have hmax : a + (((b - a).toNat : Nat) : Int) = max a b := by
    rcases le_total a b with h | h
    · rw [max_eq_right h, Int.toNat_of_nonneg (by omega)]
      omega
    · rw [max_eq_left h, Int.toNat_eq_zero.mpr (by omega)]
      simp
  obtain ⟨sc1, hsc1, hi1⟩ :=
    Scope.define_find st.heap st.currentScope sc "i" (.LONG (max a b)) hsc
  have hlen : st.currentScope < (Scope.define st.heap st.currentScope "i" (.LONG (max a b))).length :=
    (List.getElem?_eq_some_iff.mp hsc1).1
  have hframe : (counted st a (b - a).toNat).heap[st.currentScope]? = some sc1 := by
    simp only [counted, hmax]
    rw [List.getElem?_append_left hlen]
    exact hsc1
  refine ⟨?_, rfl, rfl, ⟨sc1, hframe, hi1⟩, ?_⟩
  · simpa [execStmt, countLoop] using hrun
  · simp [Scope.get, hframe, hi1]

theorem C10_counting_loop_witness :
    execStmt silent 11 (countLoop 3) counterStart = .done (counted counterStart 0 3) ∧
    (counted counterStart 0 3).out = ["0", "1", "2"] ∧
    Scope.get 11 (counted counterStart 0 3).heap 0 "i" = .ok (.LONG 3) := by
  have h := C10_counting_loop silent counterStart ⟨[("i", .LONG 0)], none⟩ 0 3 11 rfl rfl
    (by decide) (by decide) (by decide) (by decide)
  exact ⟨h.1, by decide, by decide⟩

/-! ## Claims on binary operators -/

/-- C11: dividing any Integer by Integer zero gives Integer zero, without a
throw; `PRINT (10 / 0)` writes the line `0` and the block goes on with the
next statement. -/
theorem C11_division_by_zero (invoke : Dispatcher) :
    (∀ l : Int, evalBinOp (.LONG l) "/" (.LONG 0) = .ok (.LONG 0)) ∧
    (∀ (fuel : Nat) (h : Heap) (cur : Nat) (le re : Expr) (l : Int),
      evalExpr fuel h cur le = .ok (.LONG l) → evalExpr fuel h cur re = .ok (.LONG 0) →
      evalExpr fuel h cur (.BINARY_OP le "/" re) = .ok (.LONG 0)) ∧
    (∀ (fuel : Nat) (st : ASTExecutor) (rest : List Stmt),
      execStmt invoke (fuel + 1)
          (.PRINT (.BINARY_OP (.NUMBER (.fin 10)) "/" (.NUMBER (.fin 0)))) st =
        .done { st with out := st.out ++ ["0"] } ∧
      execBlock invoke (fuel + 2)
          (.PRINT (.BINARY_OP (.NUMBER (.fin 10)) "/" (.NUMBER (.fin 0))) :: rest) st =
        execBlock invoke (fuel + 1) rest { st with out := st.out ++ ["0"] }) := by
  have hdiv : ∀ l : Int, evalBinOp (.LONG l) "/" (.LONG 0) = .ok (.LONG 0) := by
    intro l
    simp [evalBinOp]
  have h10 : ∀ (fuel : Nat) (h : Heap) (cur : Nat),
      evalExpr fuel h cur (.BINARY_OP (.NUMBER (.fin 10)) "/" (.NUMBER (.fin 0))) =
        .ok (.LONG 0) := by
    intro fuel h cur
    have e10 : eqCastLong (.fin 10) = true := by decide
    have c10 : castLong (.fin 10) = 10 := by decide
    have e0 : eqCastLong (.fin 0) = true := by decide
    have c0 : castLong (.fin 0) = 0 := by decide
    simp [evalExpr, e10, c10, e0, c0, hdiv]
  have hstr : (Value.LONG 0).toString = "0" := by decide
  refine ⟨hdiv, ?_, ?_⟩
  · intro fuel h cur le re l hl hr
    simp [evalExpr, hl, hr, hdiv]
  · intro fuel st rest
    have hp : execStmt invoke (fuel + 1)
          (.PRINT (.BINARY_OP (.NUMBER (.fin 10)) "/" (.NUMBER (.fin 0)))) st =
        .done { st with out := st.out ++ ["0"] } := by
      simp [execStmt, execPrint, h10, IO_print, hstr]
    refine ⟨hp, ?_⟩
    simp [execBlock, hp]

theorem C11_division_by_zero_witness :
    evalExpr 0 [] 0 (.BINARY_OP (.NUMBER (.fin 7)) "/" (.BINARY_OP (.NUMBER (.fin 1)) "-"
      (.NUMBER (.fin 1)))) = .ok (.LONG 0) :=
  (C11_division_by_zero silent).2.1 0 [] 0 (.NUMBER (.fin 7))
    (.BINARY_OP (.NUMBER (.fin 1)) "-" (.NUMBER (.fin 1))) 7 (by decide) (by decide)

/-- C12: when an operand is not an Integer, or the operator is not one of the
seven, `evalBinOp` gives Null, and a `BINARY_OP` whose operands evaluate
returns Null without a throw. -/
theorem C12_unsupported_gives_null (left right : Value) (op : String)
    (hbad : (∀ l, left ≠ .LONG l) ∨ (∀ r, right ≠ .LONG r) ∨ op ∉ binaryOperators) :
    evalBinOp left op right = .ok .NONE ∧
    (∀ (fuel : Nat) (h : Heap) (cur : Nat) (le re : Expr),
      evalExpr fuel h cur le = .ok left → evalExpr fuel h cur re = .ok right →
      evalExpr fuel h cur (.BINARY_OP le op re) = .ok .NONE) := by
  have hnone : evalBinOp left op right = .ok .NONE := by
    rcases hbad with hl | hr | hop
    · cases left with
      | LONG l => exact absurd rfl (hl l)
      | DOUBLE v => rfl
      | STRING v => rfl
      | BOOL v => rfl
      | NONE => rfl
    · cases right with
      | LONG r => exact absurd rfl (hr r)
      | DOUBLE v => cases left <;> rfl
      | STRING v => cases left <;> rfl
      | BOOL v => cases left <;> rfl
      | NONE => cases left <;> rfl
    · simp only [binaryOperators, List.mem_cons, List.mem_singleton, List.not_mem_nil,
        or_false, not_or] at hop
      obtain ⟨h1, h2, h3, h4, h5, h6, h7⟩ := hop
      cases left <;> cases right <;> simp [evalBinOp, h1, h2, h3, h4, h5, h6, h7]
  refine ⟨hnone, ?_⟩
  intro fuel h cur le re hl hr
  simp [evalExpr, hl, hr, hnone]

theorem C12_unsupported_gives_null_witness :
    evalBinOp (.DOUBLE (.fin 1)) "+" (.LONG 1) = .ok .NONE ∧
    evalBinOp (.LONG 1) "+" (.STRING "a") = .ok .NONE ∧
    evalBinOp (.LONG 1) "%" (.LONG 1) = .ok .NONE :=
  ⟨(C12_unsupported_gives_null (.DOUBLE (.fin 1)) (.LONG 1) "+"
      (Or.inl (fun _ h => Value.noConfusion h))).1,
    (C12_unsupported_gives_null (.LONG 1) (.STRING "a") "+"
      (Or.inr (Or.inl (fun _ h => Value.noConfusion h)))).1,
    (C12_unsupported_gives_null (.LONG 1) (.LONG 1) "%" (Or.inr (Or.inr (by decide)))).1⟩

/-- On two Integers other than the overflowing pair of the division, `+ - *`
return the Integer sum, difference and product when it fits in `long`, `/`
returns an Integer, and `> < ==` return the Boolean of the comparison. -/
theorem integer_operators (l r : Int) :
    (inLong (l + r) → evalBinOp (.LONG l) "+" (.LONG r) = .ok (.LONG (l + r))) ∧
    (inLong (l - r) → evalBinOp (.LONG l) "-" (.LONG r) = .ok (.LONG (l - r))) ∧
    (inLong (l * r) → evalBinOp (.LONG l) "*" (.LONG r) = .ok (.LONG (l * r))) ∧
    (¬ (l = -(2 ^ 63) ∧ r = -1) → ∃ q, evalBinOp (.LONG l) "/" (.LONG r) = .ok (.LONG q)) ∧
    evalBinOp (.LONG l) ">" (.LONG r) = .ok (.BOOL (decide (l > r))) ∧
    evalBinOp (.LONG l) "<" (.LONG r) = .ok (.BOOL (decide (l < r))) ∧
    evalBinOp (.LONG l) "==" (.LONG r) = .ok (.BOOL (decide (l = r))) := by
  refine ⟨?_, ?_, ?_, ?_, ?_, ?_, ?_⟩
  · intro h; simp [evalBinOp, wrap64_of_inLong _ h]
  · intro h; simp [evalBinOp, wrap64_of_inLong _ h]
  · intro h; simp [evalBinOp, wrap64_of_inLong _ h]
  · intro h
    by_cases hr : r = 0
    · exact ⟨0, by simp [evalBinOp, hr]⟩
    · have h' : ¬ (l = -9223372036854775808 ∧ r = -1) := by simpa using h
      exact ⟨wrap64 (Int.tdiv l r), by simp [evalBinOp, hr, h']⟩
  · simp [evalBinOp]
  · simp [evalBinOp]
  · simp [evalBinOp]

/-- C13, the code at the failing input: both operands are Integers in the
range of `long` and the second is not zero, yet the division
`-9223372036854775808 / -1` returns no value: it overflows, the process is
stopped, and `execute` on `[PRINT (-9223372036854775808 / -1)]` does not
return. -/
theorem C13_division_overflow_traps :
    inLong (-9223372036854775808) ∧ inLong (-1) ∧
    evalBinOp (.LONG (-9223372036854775808)) "/" (.LONG (-1)) = .trapped ∧
    (∀ v, evalBinOp (.LONG (-9223372036854775808)) "/" (.LONG (-1)) ≠ .ok v) ∧
    execute silent 3
        (.BLOCK [.PRINT (.BINARY_OP (.NUMBER (.fin (-9223372036854775808))) "/"
          (.NUMBER (.fin (-1))))]) ASTExecutor.new = .trapped := by
  have h : evalBinOp (.LONG (-9223372036854775808)) "/" (.LONG (-1)) = .trapped := by decide
  refine ⟨by decide, by decide, h, ?_, by decide⟩
  intro v hv
  rw [h] at hv
  exact Eval.noConfusion hv

/-! ## Claims on literals and rendering -/

/-- C14, as stated, fails: the literal `9223372036854775808` (two to the 63) has
zero fractional part and is evaluated to a Float, not to the Integer of that
value. -/
theorem C14_number_literal_counterexample :
    Int.fract (9223372036854775808 : ℚ) = 0 ∧
    evalExpr 0 [] 0 (.NUMBER (.fin 9223372036854775808)) =
      .ok (.DOUBLE (.fin 9223372036854775808)) ∧
    evalExpr 0 [] 0 (.NUMBER (.fin 9223372036854775808)) ≠ .ok (.LONG 9223372036854775808) := by
  refine ⟨?_, by decide, by decide⟩
  have : (9223372036854775808 : ℚ) = ((9223372036854775808 : Int) : ℚ) := by norm_num
  rw [this, Int.fract_intCast]

theorem fract_zero_eq_floor (q : ℚ) (h : Int.fract q = 0) : q = ((⌊q⌋ : Int) : ℚ) := by
  have := Int.floor_add_fract q
  rw [h, add_zero] at this
  exact this.symm

/-- C14, amended: a `NUMBER` literal whose integer part fits in `long` is
evaluated to the Integer of its value when its fractional part is zero and to
the Float of its value otherwise; a literal with zero fractional part whose
value does not fit in `long` is not evaluated to the Integer of its value. -/
theorem C14_number_literal (fuel : Nat) (h : Heap) (cur : Nat) (q : ℚ) :
    (inLong (Int.tdiv q.num q.den) → Int.fract q = 0 →
      evalExpr fuel h cur (.NUMBER (.fin q)) = .ok (.LONG ⌊q⌋)) ∧
    (inLong (Int.tdiv q.num q.den) → Int.fract q ≠ 0 →
      evalExpr fuel h cur (.NUMBER (.fin q)) = .ok (.DOUBLE (.fin q))) ∧
    (Int.fract q = 0 → ¬ inLong ⌊q⌋ →
      evalExpr fuel h cur (.NUMBER (.fin q)) ≠ .ok (.LONG ⌊q⌋)) := by
  refine ⟨?_, ?_, ?_⟩
  · intro hr hz
    have hq := fract_zero_eq_floor q hz
    have hr' : inLong ⌊q⌋ := by
      rw [hq] at hr
      simpa using hr
    rw [hq, Int.floor_intCast]
    exact evalExpr_number_int fuel h cur ⌊q⌋ hr'
  · intro hr hnz
    have hne : eqCastLong (.fin q) = false := by
      simp only [eqCastLong, decide_eq_false_iff_not]
      intro heq
      apply hnz
      rw [heq, Int.fract_intCast]
    simp [evalExpr, hne]
  · intro hz hout hev
    have hin : inLong (castLong (.fin q)) := by
      simp only [castLong]
      split
      · assumption
      · decide
    simp only [evalExpr] at hev
    split at hev
    · simp only [Eval.ok.injEq, Value.LONG.injEq] at hev
      rw [hev] at hin
      exact hout hin
    · simp at hev

theorem C14_number_literal_witness :
    evalExpr 0 [] 0 (.NUMBER (.fin 4)) = .ok (.LONG ⌊(4 : ℚ)⌋) ∧
    evalExpr 0 [] 0 (.NUMBER (.fin (9 / 2))) = .ok (.DOUBLE (.fin (9 / 2))) := by
  have h4 : ((4 : ℚ)).num = 4 ∧ ((4 : ℚ)).den = 1 := ⟨rfl, rfl⟩
  have h92n : ((9 / 2 : ℚ)).num = 9 := by norm_num
  have h92d : ((9 / 2 : ℚ)).den = 2 := by norm_num
  refine ⟨(C14_number_literal 0 [] 0 4).1 (by rw [h4.1, h4.2]; decide) ?_,
    (C14_number_literal 0 [] 0 (9 / 2)).2.1 (by rw [h92n, h92d]; decide) ?_⟩
  · have : (4 : ℚ) = ((4 : Int) : ℚ) := by norm_num
    rw [this, Int.fract_intCast]
  · intro hz
    have hq := fract_zero_eq_floor _ hz
    have hden : ((9 / 2 : ℚ)).den = 1 := by
      rw [hq]
      exact Rat.intCast_den _
    rw [h92d] at hden
    exact absurd hden (by decide)

theorem toDigitsCore_eq_digits :
    ∀ (fuel n : Nat) (ds : List Char), n < fuel → 0 < n →
      Nat.toDigitsCore 10 fuel n ds = (Nat.digits 10 n).reverse.map Nat.digitChar ++ ds := by
  intro fuel
  induction fuel with
  | zero => intro n ds h; omega
  | succ f ih =>
    intro n ds hlt hpos
    have hdig : Nat.digits 10 n = n % 10 :: Nat.digits 10 (n / 10) :=
      Nat.digits_def' (by decide) hpos
    simp only [Nat.toDigitsCore]
    by_cases h0 : n / 10 = 0
    · simp [h0, hdig]
    · have hlt' : n / 10 < f := by omega
      rw [if_neg h0, ih (n / 10) _ hlt' (Nat.pos_of_ne_zero h0), hdig]
      simp

theorem toDigits_eq_decimalDigits (n : Nat) : Nat.toDigits 10 n = decimalDigits n := by
  unfold decimalDigits Nat.toDigits
  by_cases h0 : n = 0
  · subst h0
    rfl
  · rw [if_neg h0, toDigitsCore_eq_digits (n + 1) n [] (by omega) (Nat.pos_of_ne_zero h0)]
    simp

theorem toString_int_eq_decimalNumeral (v : Int) : toString v = decimalNumeral v := by
  unfold decimalNumeral
  cases v with
  | ofNat m =>
    have hnn : ¬ (Int.ofNat m < 0) := by simp
    rw [if_neg hnn]
    show Nat.repr m = "" ++ String.mk (decimalDigits m)
    simp [Nat.repr, toDigits_eq_decimalDigits, List.asString]
  | negSucc m =>
    have hneg : Int.negSucc m < 0 := Int.negSucc_lt_zero m
    rw [if_pos hneg]
    show "-" ++ Nat.repr (m + 1) = "-" ++ String.mk (decimalDigits (m + 1))
    simp [Nat.repr, toDigits_eq_decimalDigits, List.asString]

/-- C15: `Value::toString` renders Boolean true, Boolean false and Null as the
three fixed tokens, which are pairwise distinct and non-empty; a Text renders
as its own string; an Integer renders as its signed decimal numeral. -/
theorem C15_toString_tokens :
    (Value.BOOL true).toString = "真" ∧ (Value.BOOL false).toString = "假" ∧
    Value.NONE.toString = "空" ∧
    (Value.BOOL true).toString ≠ (Value.BOOL false).toString ∧
    (Value.BOOL true).toString ≠ Value.NONE.toString ∧
    (Value.BOOL false).toString ≠ Value.NONE.toString ∧
    (Value.BOOL true).toString ≠ "" ∧ (Value.BOOL false).toString ≠ "" ∧
    Value.NONE.toString ≠ "" ∧
    (∀ s : String, (Value.STRING s).toString = s) ∧
    (∀ v : Int, (Value.LONG v).toString = decimalNumeral v) :=
  ⟨rfl, rfl, rfl, by decide, by decide, by decide, by decide, by decide, by decide,
    fun _ => rfl, fun v => toString_int_eq_decimalNumeral v⟩

/-! ## Claims on faults, the root block, scenario A and unknown nodes -/

/-- A block whose first statements return runs the statements after them in
the state they left, with the budget that remains. -/
theorem execBlock_append (invoke : Dispatcher) (tail : List Stmt) :
    ∀ (pre : List Stmt) (fuel : Nat) (st st1 : ASTExecutor),
      execBlock invoke fuel pre st = .done st1 →
      execBlock invoke fuel (pre ++ tail) st = execBlock invoke (fuel - pre.length) tail st1 := by
  intro pre
  induction pre with
  | nil =>
    intro fuel st st1 hr
    cases fuel with
    | zero => simp [execBlock] at hr
    | succ m =>
      simp only [execBlock, Run.done.injEq] at hr
      subst hr
      simp
  | cons item rest ih =>
    intro fuel st st1 hr
    cases fuel with
    | zero => simp [execBlock] at hr
    | succ m =>
      simp only [execBlock] at hr
      cases hs : execStmt invoke m item st with
      | done st' =>
        simp only [hs] at hr
        have hrest := ih m st' st1 hr
        have hlen : m + 1 - (item :: rest).length = m - rest.length := by
          simp only [List.length_cons]
          omega
        rw [hlen, List.cons_append]
        simp only [execBlock, hs]
        exact hrest
      | thrown w s => simp [hs] at hr
      | outOfFuel => simp [hs] at hr
      | trapped => simp [hs] at hr

theorem evalExpr_identifier_absent {h : Heap} {cur : Nat} {l : List Nat}
    (hc : IsChain h cur l) (u : String) (fuel : Nat) (hfuel : l.length ≤ fuel)
    (hall : ∀ g ∈ l, Scope.existsLocal h g u = false) :
    evalExpr fuel h cur (.IDENTIFIER u) = .thrown (undefinedVariable u) := by
  simp only [evalExpr]
  exact (Scope.get_thrown_iff hc u fuel hfuel).mpr hall

theorem ReadsUndefined.evalExpr_thrown {fuel : Nat} {h : Heap} {cur : Nat} {u : String} {e : Expr}
    (hr : ReadsUndefined fuel h cur u e) :
    evalExpr fuel h cur e = .thrown (undefinedVariable u) := by
  induction hr with
  | identifier l hc hfuel hall =>
    simp only [evalExpr]
    exact (Scope.get_thrown_iff hc u fuel hfuel).mpr hall
  | left left op right _ ih => simp only [evalExpr, ih]
  | right left op right lv hl _ ih => simp only [evalExpr, hl, ih]

theorem ArgsReadUndefined.evalArgs_thrown {fuel : Nat} {h : Heap} {cur : Nat} {u : String}
    {args : List Expr} (hr : ArgsReadUndefined fuel h cur u args) :
    evalArgs fuel h cur args = .thrown (undefinedVariable u) := by
  induction hr with
  | head arg rest ha => simp only [evalArgs, ha.evalExpr_thrown]
  | tail arg rest v ha _ ih => simp only [evalArgs, ha, ih]

/-- A run that reaches a faulting read throws `UndefinedVariable` with the
state in which the faulting statement started. -/
theorem faults_thrown (invoke : Dispatcher) (u : String) :
    ∀ fuel : Nat,
      (∀ stmts st st', BlockFaults invoke u fuel stmts st st' →
        execBlock invoke fuel stmts st = .thrown (undefinedVariable u) st') ∧
      (∀ stmt st st', StmtFaults invoke u fuel stmt st st' →
        execStmt invoke fuel stmt st = .thrown (undefinedVariable u) st') ∧
      (∀ body st st', BodyFaults invoke u fuel body st st' →
        execBody invoke fuel body st = .thrown (undefinedVariable u) st') ∧
      (∀ c b e st st', IfFaults invoke u fuel c b e st st' →
        execIf invoke fuel c b e st = .thrown (undefinedVariable u) st') ∧
      (∀ c b st st', LoopFaults invoke u fuel c b st st' →
        execLoop invoke fuel c b st = .thrown (undefinedVariable u) st') := by
  intro fuel
  induction fuel with
  | zero =>
    refine ⟨?_, ?_, ?_, ?_, ?_⟩ <;> intros <;> rename_i h <;> cases h
  | succ n ih =>
    obtain ⟨ihBlock, ihStmt, ihBody, ihIf, ihLoop⟩ := ih
    refine ⟨?_, ?_, ?_, ?_, ?_⟩
    · intro stmts st st' h
      cases h with
      | first _ item rest _ _ h => simp only [execBlock, ihStmt item st st' h]
      | later _ item rest _ st1 _ hdone h =>
        simp only [execBlock, hdone, ihBlock rest st1 st' h]
    · intro stmt st st' h
      cases h with
      | print _ e _ h => simp only [execStmt, execPrint, h.evalExpr_thrown]
      | assignment _ name e _ h => simp only [execStmt, execAssign, h.evalExpr_thrown]
      | autoCall _ f args _ h => simp only [execStmt, execAuto, h.evalArgs_thrown]
      | block _ stmts _ _ h =>
        simp only [execStmt, ihBlock stmts _ st' h, restoreScope]
      | ifStmt _ c b e _ _ h => simp only [execStmt, ihIf c b e st st' h]
      | loop _ c b _ _ h => simp only [execStmt, ihLoop c b st st' h]
    · intro body st st' h
      cases h with
      | block _ stmts _ _ h => simp only [execBody, ihBlock stmts _ st' h, restoreScope]
      | single _ _ _ _ hb h =>
        have hs := ihStmt body _ st' h
        cases body with
        | BLOCK stmts => exact absurd rfl (hb stmts)
        | OTHER t => cases h
        | IF c b e => simp only [execBody, hs, restoreScope]
        | LOOP c b => simp only [execBody, hs, restoreScope]
        | PRINT e => simp only [execBody, hs, restoreScope]
        | ASSIGNMENT t v => simp only [execBody, hs, restoreScope]
        | AUTO_CALL f args => simp only [execBody, hs, restoreScope]
    · intro c b e st st' h
      cases h with
      | cond _ _ _ _ _ h => simp only [execIf, h.evalExpr_thrown]
      | thenBody _ _ _ _ _ _ cond hc ht h =>
        simp only [execIf, hc, ht, if_true, ihBody b st st' h]
      | elseBody _ _ _ eb _ _ cond hc ht h =>
        simp only [execIf, hc, ht, Bool.false_eq_true, if_false, ihBody eb st st' h]
    · intro c b st st' h
      cases h with
      | cond _ _ _ _ h => simp only [execLoop, h.evalExpr_thrown]
      | body _ _ _ _ _ cond hc ht h =>
        simp only [execLoop, hc, ht, if_true, ihBody b st st' h]
      | next _ _ _ _ st1 _ cond hc ht hdone h =>
        simp only [execLoop, hc, ht, if_true, hdone, ihLoop c b st1 st' h]

/-- C16: `UndefinedVariable` is fatal and not rolled back.  For every root
block whose run reaches, at any depth of `BLOCK`, `IF` and `LOOP` nesting and
in an expression of a `PRINT`, an `ASSIGNMENT`, a condition or the arguments of
an `AUTO_CALL`, the read of a name that no frame of the chain holds, `execute`
returns with the error reported; the state is the one in which the faulting
statement started, so the output is what the statements run before it wrote,
the faulting statement writes nothing, and no statement after it has run.  In
particular a root block `pre ++ [PRINT u] ++ post` ends with the output of
`pre`, whatever `post` is. -/
theorem C16_undefined_variable_fatal (invoke : Dispatcher) (u : String) :
    (∀ (fuel : Nat) (stmts : List Stmt) (st st' : ASTExecutor),
      BlockFaults invoke u fuel stmts st st' →
      execute invoke fuel (.BLOCK stmts) st =
        .done { st' with err := st'.err ++ ["Runtime Error: " ++ undefinedVariable u] }) ∧
    (∀ (pre post : List Stmt) (k : Nat) (st st1 : ASTExecutor) (l : List Nat),
      execBlock invoke (pre.length + k + 2) pre st = .done st1 →
      IsChain st1.heap st1.currentScope l → l.length ≤ k →
      (∀ g ∈ l, Scope.existsLocal st1.heap g u = false) →
      execute invoke (pre.length + k + 2) (.BLOCK (pre ++ .PRINT (.IDENTIFIER u) :: post)) st =
        .done { st1 with err := st1.err ++ ["Runtime Error: " ++ undefinedVariable u] }) := by
  constructor
  · intro fuel stmts st st' h
    simp only [execute, (faults_thrown invoke u fuel).1 stmts st st' h]
  · intro pre post k st st1 l hpre hc hk hall
    have hfuel : pre.length + k + 2 - pre.length = k + 2 := by omega
    simp only [execute]
    rw [execBlock_append invoke (.PRINT (.IDENTIFIER u) :: post) pre _ st st1 hpre, hfuel]
    simp [execBlock, execStmt, execPrint, evalExpr_identifier_absent hc u k hk hall]

theorem C16_undefined_variable_fatal_witness :
    execute silent 9 (.BLOCK nestedFault) ASTExecutor.new =
      .done { atNestedFault with
        err := atNestedFault.err ++ ["Runtime Error: " ++ undefinedVariable "u"] } ∧
    atNestedFault.out = ["a"] ∧
    execute silent 4 (.BLOCK ([.PRINT (.STRING "a")] ++
        .PRINT (.IDENTIFIER "u") :: [.PRINT (.STRING "b")])) ASTExecutor.new =
      .done { (IO_print "a" ASTExecutor.new) with
        err := (IO_print "a" ASTExecutor.new).err ++
          ["Runtime Error: " ++ undefinedVariable "u"] } :=
  ⟨(C16_undefined_variable_fatal silent "u").1 9 nestedFault ASTExecutor.new atNestedFault
      (.later 8 _ _ _ (IO_print "a" ASTExecutor.new) _ (by rfl)
        (.first 7 _ _ _ _
          (.ifStmt 6 _ _ _ _ _
            (.thenBody 5 _ _ _ _ _ (.BOOL true) (by rfl) (by rfl)
              (.block 4 _ _ _
                (.first 3 _ _ _ _
                  (.autoCall 2 _ _ _
                    (.head _ _
                      (.right _ _ _ (.LONG 1) (by decide)
                        (.identifier [1, 0]
                          (.step 1 0 ⟨[], some 0⟩ [0] rfl rfl (.root 0 ⟨[], none⟩ rfl rfl))
                          (by decide) (by decide))))))))))),
    rfl,
    (C16_undefined_variable_fatal silent "u").2 [.PRINT (.STRING "a")] [.PRINT (.STRING "b")] 1
      ASTExecutor.new (IO_print "a" ASTExecutor.new) [0] (by rfl)
      (.root 0 ⟨[], none⟩ rfl rfl) (by decide) (by decide)⟩

/-- C18, as stated, fails: `n = 9007199254740993` (two to the 53, plus one) is
in the range of `long`, but no double holds it; the literal `NUMBER{n}` is read
as the double `9007199254740992`, and the line written is that number, not the
numeral of `n`. -/
theorem C18_assign_then_print_counterexample :
    inLong 9007199254740993 ∧
    execute silent 4
        (.BLOCK [.ASSIGNMENT "x" (intLiteral 9007199254740993), .PRINT (.IDENTIFIER "x")])
        ASTExecutor.new =
      .done { ASTExecutor.new with
        heap := [⟨[("x", .LONG 9007199254740992)], none⟩], out := ["9007199254740992"] } ∧
    (Value.LONG 9007199254740993).toString = "9007199254740993" ∧
    "9007199254740992" ≠ (Value.LONG 9007199254740993).toString := by
  refine ⟨by decide, by decide, by decide, by decide⟩

/-- C18, amended: on a fresh evaluator the root block `[x = n, print x]`, with
`n` in the range of `long` and a value that a double holds exactly (every `n`
of magnitude below two to the 53 is one, `nearestDouble_of_lt`), returns
without an error line and writes one line, the decimal numeral of `n`. -/
theorem C18_assign_then_print (invoke : Dispatcher) (n : Int) (x : String) (fuel : Nat)
    (hn : inLong n) (hexact : nearestDouble n = n) :
    execute invoke (fuel + 4)
        (.BLOCK [.ASSIGNMENT x (intLiteral n), .PRINT (.IDENTIFIER x)])
        ASTExecutor.new =
      .done { ASTExecutor.new with
        heap := [⟨[(x, .LONG n)], none⟩], out := [decimalNumeral n] } := by
  simp [execute, execBlock, execStmt, execAssign, execPrint, ASTExecutor.new,
    intLiteral, hexact, eqCastLong_intCast n hn, castLong_intCast n hn,
    Scope.existsLocal, Scope.assign, Scope.define, Scope.get, Vars.find, Vars.set,
    evalExpr, IO_print, Value.toString, toString_int_eq_decimalNumeral]

theorem C18_assign_then_print_witness :
    execute silent 4 (.BLOCK [.ASSIGNMENT "x" (intLiteral 5),
        .PRINT (.IDENTIFIER "x")]) ASTExecutor.new =
      .done { ASTExecutor.new with
        heap := [⟨[("x", .LONG 5)], none⟩], out := [decimalNumeral 5] } ∧
    (Value.LONG 5).toString = "5" :=
  ⟨C18_assign_then_print silent 5 "x" 0 (by decide) (by decide), by decide⟩

/-- C20: a statement node of an unknown type returns at once with the state
unchanged and the block goes on with the next statement; an expression node of
an unknown type evaluates to Null. -/
theorem C20_unknown_node_types (invoke : Dispatcher) (fuel : Nat) (type : String) :
    (type ∉ statementTypes →
      ∀ (st : ASTExecutor) (rest : List Stmt),
        execStmt invoke (fuel + 1) (.OTHER type) st = .done st ∧
        execBlock invoke (fuel + 2) (.OTHER type :: rest) st =
          execBlock invoke (fuel + 1) rest st) ∧
    (type ∉ expressionTypes →
      ∀ (h : Heap) (cur : Nat), evalExpr fuel h cur (.OTHER type) = .ok .NONE) := by
  constructor
  · intro ht st rest
    simp only [statementTypes, List.mem_cons, List.mem_singleton, List.not_mem_nil, or_false,
      not_or] at ht
    obtain ⟨h1, h2, h3, h4, h5, h6⟩ := ht
    have hs : execStmt invoke (fuel + 1) (.OTHER type) st = .done st := by
      simp [execStmt, h1, h2, h3, h4, h5, h6]
    exact ⟨hs, by simp [execBlock, hs]⟩
  · intro ht h cur
    simp only [expressionTypes, List.mem_cons, List.mem_singleton, List.not_mem_nil, or_false,
      not_or] at ht
    obtain ⟨h1, h2, h3, h4, h5, h6⟩ := ht
    simp [evalExpr, h1, h2, h3, h4, h5, h6]

theorem C20_unknown_node_types_witness :
    execBlock silent 3 [.OTHER "WHILE", .PRINT (.OTHER "CALL")] ASTExecutor.new =
      execBlock silent 2 [.PRINT (.OTHER "CALL")] ASTExecutor.new ∧
    evalExpr 0 [] 0 (.OTHER "CALL") = .ok .NONE :=
  ⟨((C20_unknown_node_types silent 1 "WHILE").1 (by decide) ASTExecutor.new
      [.PRINT (.OTHER "CALL")]).2,
    (C20_unknown_node_types silent 0 "CALL").2 (by decide) [] 0⟩

/-- C7, amended: `execute` gives the root `BLOCK` no frame of its own.  For
every root block, `execute` is the run of the block's statements from the
state it is called in (with a thrown error reported), whereas a nested `BLOCK`
statement runs its statements in a pushed frame and restores the scope.  So
after any statements `pre` that return, a top-level assignment to a name that
no frame of the chain holds defines the name in the frame that was current
when `execute` was called (the global one on a fresh evaluator), no frame is
created for it, and a later `execute` that prints the name writes the
assigned value. -/
theorem C7_root_block_runs_in_current_scope (invoke : Dispatcher) :
    (∀ (fuel : Nat) (stmts : List Stmt) (st : ASTExecutor),
      execute invoke fuel (.BLOCK stmts) st =
        (match execBlock invoke fuel stmts st with
         | .thrown what s => .done { s with err := s.err ++ ["Runtime Error: " ++ what] }
         | r => r)) ∧
    (∀ (fuel : Nat) (stmts : List Stmt) (st : ASTExecutor),
      execStmt invoke (fuel + 1) (.BLOCK stmts) st =
        restoreScope st.currentScope (execBlock invoke fuel stmts (pushScope st))) ∧
    (∀ (pre : List Stmt) (k : Nat) (st st1 : ASTExecutor) (l : List Nat) (name : String)
        (e : Expr) (v : Value),
      execBlock invoke (pre.length + k + 2) pre st = .done st1 →
      IsChain st1.heap st1.currentScope l → l.length ≤ k →
      evalExpr k st1.heap st1.currentScope e = .ok v →
      (∀ g ∈ l, Scope.existsLocal st1.heap g name = false) →
      execute invoke (pre.length + k + 2) (.BLOCK (pre ++ [.ASSIGNMENT name e])) st =
          .done { st1 with heap := Scope.define st1.heap st.currentScope name v } ∧
      (Scope.define st1.heap st.currentScope name v).length = st1.heap.length ∧
      Scope.existsLocal (Scope.define st1.heap st.currentScope name v) st.currentScope name
          = true ∧
      execute invoke (k + 2) (.BLOCK [.PRINT (.IDENTIFIER name)])
          { st1 with heap := Scope.define st1.heap st.currentScope name v } =
        .done { st1 with heap := Scope.define st1.heap st.currentScope name v,
                         out := st1.out ++ [v.toString] }) := by
  refine ⟨fun fuel stmts st => rfl, fun fuel stmts st => ?_, ?_⟩
  · simp only [execStmt]
  · intro pre k st st1 l name e v hpre hc hk hv hall
    have hcur : st1.currentScope = st.currentScope :=
      ((exec_kept invoke _).1 pre st st1 hpre).1
    have hone := root_assignment_persists invoke st1 l name e v k hc hk hv hall
    have hfuel : pre.length + k + 2 - pre.length = k + 2 := by omega
    rw [← hcur]
    refine ⟨?_, hone.2.1, hone.2.2.1, hone.2.2.2⟩
    simp only [execute]
    rw [execBlock_append invoke [.ASSIGNMENT name e] pre _ st st1 hpre, hfuel]
    exact hone.1

theorem C7_root_block_runs_in_current_scope_witness :
    execute silent 4 (.BLOCK ([.PRINT (.STRING "a")] ++ [.ASSIGNMENT "x" (.NUMBER (.fin 5))]))
        ASTExecutor.new =
      .done { (IO_print "a" ASTExecutor.new) with
        heap := Scope.define (IO_print "a" ASTExecutor.new).heap 0 "x" (.LONG 5) } ∧
    (Scope.define (IO_print "a" ASTExecutor.new).heap 0 "x" (.LONG 5)).length = 1 ∧
    Scope.existsLocal (Scope.define (IO_print "a" ASTExecutor.new).heap 0 "x" (.LONG 5)) 0 "x"
        = true ∧
    execute silent 3 (.BLOCK [.PRINT (.IDENTIFIER "x")])
        { (IO_print "a" ASTExecutor.new) with
          heap := Scope.define (IO_print "a" ASTExecutor.new).heap 0 "x" (.LONG 5) } =
      .done { (IO_print "a" ASTExecutor.new) with
        heap := Scope.define (IO_print "a" ASTExecutor.new).heap 0 "x" (.LONG 5),
        out := ["a"] ++ [(Value.LONG 5).toString] } :=
  (C7_root_block_runs_in_current_scope silent).2.2 [.PRINT (.STRING "a")] 1 ASTExecutor.new
    (IO_print "a" ASTExecutor.new) [0] "x" (.NUMBER (.fin 5)) (.LONG 5) (by rfl)
    (.root 0 ⟨[], none⟩ rfl rfl) (by decide) (by decide) (by decide)

/-! ## Claims on integer division -/

theorem tdiv_inLong (l r : Int) (hl : inLong l) (hr : r ≠ 0)
    (hov : ¬ (l = -(2 ^ 63) ∧ r = -1)) : inLong (Int.tdiv l r) := by
  unfold inLong at hl ⊢
  have habs : (Int.tdiv l r).natAbs = l.natAbs / r.natAbs := Int.natAbs_tdiv l r
  have hrpos : 0 < r.natAbs := Int.natAbs_pos.mpr hr
  have hle : l.natAbs / r.natAbs ≤ l.natAbs := Nat.div_le_self _ _
  by_cases h1 : r.natAbs = 1
  · rcases Int.natAbs_eq r with hr1 | hr1
    · have : r = 1 := by omega
      subst this
      simp only [Int.tdiv_one]
      exact hl
    · have : r = -1 := by omega
      subst this
      have hneg : Int.tdiv l (-1) = -l := by
        rw [Int.tdiv_neg, Int.tdiv_one]
      rw [hneg]
      have : l ≠ -(2 ^ 63) := fun h => hov ⟨h, rfl⟩
      omega
  · have h2 : 2 ≤ r.natAbs := by omega
    have hhalf : l.natAbs / r.natAbs ≤ l.natAbs / 2 :=
      Nat.div_le_div_left h2 (by decide)
    omega

theorem tmod_neg_left (l r : Int) : Int.tmod (-l) r = -Int.tmod l r := by
  rw [Int.tmod_def, Int.tmod_def, Int.neg_tdiv]
  ring

theorem tmod_bounds_nonneg (l r : Int) (hl : 0 ≤ l) (hr : r ≠ 0) :
    0 ≤ Int.tmod l r ∧ Int.tmod l r < |r| := by
  refine ⟨Int.tmod_nonneg r hl, ?_⟩
  rcases lt_or_gt_of_ne hr with hneg | hpos
  · have h := Int.tmod_lt_of_pos l (show 0 < -r by omega)
    rw [Int.tmod_neg] at h
    rw [abs_of_neg hneg]
    exact h
  · rw [abs_of_pos hpos]
    exact Int.tmod_lt_of_pos l hpos

theorem tmod_sign (l r : Int) :
    Int.tmod l r = 0 ∨ (0 < Int.tmod l r ∧ 0 < l) ∨ (Int.tmod l r < 0 ∧ l < 0) := by
  rcases le_or_lt 0 l with hl | hl
  · have h := Int.tmod_nonneg r hl
    rcases eq_or_lt_of_le h with h0 | hpos
    · left; exact h0.symm
    · right; left
      refine ⟨hpos, ?_⟩
      rcases eq_or_lt_of_le hl with hl0 | hlpos
      · subst hl0
        simp at hpos
      · exact hlpos
  · have hneg := tmod_neg_left l r
    have h := Int.tmod_nonneg r (show 0 ≤ -l by omega)
    rcases eq_or_lt_of_le h with h0 | hpos
    · left; omega
    · right; right
      exact ⟨by omega, hl⟩

theorem tmod_abs_lt (l r : Int) (hr : r ≠ 0) : |Int.tmod l r| < |r| := by
  rcases le_or_lt 0 l with hl | hl
  · obtain ⟨h1, h2⟩ := tmod_bounds_nonneg l r hl hr
    rw [abs_of_nonneg h1]
    exact h2
  · obtain ⟨h1, h2⟩ := tmod_bounds_nonneg (-l) r (by omega) hr
    rw [tmod_neg_left] at h1 h2
    rw [abs_of_nonpos (by omega)]
    exact h2

/-- C19: Integer division truncates toward zero.  For `l` and `r` in the range
of `long`, `r` not zero and not the overflowing pair, `l / r` is the Integer
`q` for which `l = q * r + m` with `|m| < |r|` and `m` zero or of the sign of
`l`; that `q` is the only one. -/
theorem C19_division_truncates (l r : Int) (hl : inLong l) (hr : r ≠ 0)
    (hov : ¬ (l = -(2 ^ 63) ∧ r = -1)) :
    ∃ q m : Int, evalBinOp (.LONG l) "/" (.LONG r) = .ok (.LONG q) ∧
      l = q * r + m ∧ |m| < |r| ∧ (m = 0 ∨ (0 < m ∧ 0 < l) ∨ (m < 0 ∧ l < 0)) ∧
      ∀ q' m' : Int, l = q' * r + m' → |m'| < |r| →
        (m' = 0 ∨ (0 < m' ∧ 0 < l) ∨ (m' < 0 ∧ l < 0)) → q' = q := by
  refine ⟨Int.tdiv l r, Int.tmod l r, ?_, (Int.tdiv_add_tmod' l r).symm, tmod_abs_lt l r hr,
    tmod_sign l r, ?_⟩
  · have hov' : ¬ (l = -9223372036854775808 ∧ r = -1) := by simpa using hov
    simp [evalBinOp, hr, hov', wrap64_of_inLong _ (tdiv_inLong l r hl hr hov)]
  · intro q' m' heq hlt hsign
    have h0 := Int.tdiv_add_tmod' l r
    have hm := tmod_abs_lt l r hr
    have hs := tmod_sign l r
    have hdiff : (q' - Int.tdiv l r) * r = Int.tmod l r - m' := by
      have : q' * r + m' = Int.tdiv l r * r + Int.tmod l r := by rw [← heq, h0]
      linear_combination this
    have hsmall : |Int.tmod l r - m'| < |r| := by
      rw [abs_lt] at hlt hm ⊢
      rcases hs with hs | hs | hs <;> rcases hsign with hs' | hs' | hs' <;>
        constructor <;> omega
    have hdvd : r ∣ Int.tmod l r - m' := ⟨q' - Int.tdiv l r, by rw [← hdiff]; ring⟩
    have hzero : Int.tmod l r - m' = 0 := by
      rcases lt_or_gt_of_ne hr with hneg | hpos
      · have hd : (-r) ∣ Int.tmod l r - m' := (neg_dvd).mpr hdvd
        exact Int.eq_zero_of_abs_lt_dvd hd (by rw [abs_of_neg hneg] at hsmall; exact hsmall)
      · exact Int.eq_zero_of_abs_lt_dvd hdvd (by rw [abs_of_pos hpos] at hsmall; exact hsmall)
    rw [hzero] at hdiff
    rcases mul_eq_zero.mp hdiff with h | h
    · omega
    · exact absurd h hr

theorem C19_division_truncates_witness :
    (∃ q m : Int, evalBinOp (.LONG (-7)) "/" (.LONG 2) = .ok (.LONG q) ∧
      -7 = q * 2 + m ∧ |m| < |(2 : Int)| ∧ (m = 0 ∨ (0 < m ∧ (0 : Int) < -7) ∨ (m < 0 ∧ (-7 : Int) < 0)) ∧
      ∀ q' m' : Int, -7 = q' * 2 + m' → |m'| < |(2 : Int)| →
        (m' = 0 ∨ (0 < m' ∧ (0 : Int) < -7) ∨ (m' < 0 ∧ (-7 : Int) < 0)) → q' = q) ∧
    evalBinOp (.LONG (-7)) "/" (.LONG 2) = .ok (.LONG (-3)) ∧
    evalBinOp (.LONG 7) "/" (.LONG (-2)) = .ok (.LONG (-3)) :=
  ⟨C19_division_truncates (-7) 2 (by decide) (by decide) (by decide), by decide, by decide⟩

/-! ## Claims on delegated calls -/

theorem execPrint_withErr (e : List String) (fuel : Nat) (x : Expr) (st : ASTExecutor) :
    execPrint fuel x (withErr e st) = (execPrint fuel x st).mapState (withErr e) := by
  simp only [execPrint, withErr]
  cases evalExpr fuel st.heap st.currentScope x <;> rfl

theorem execAssign_withErr (e : List String) (fuel : Nat) (name : String) (x : Expr)
    (st : ASTExecutor) :
    execAssign fuel name x (withErr e st) = (execAssign fuel name x st).mapState (withErr e) := by
  simp only [execAssign, withErr]
  cases evalExpr fuel st.heap st.currentScope x with
  | ok v =>
    simp only
    cases Scope.existsLocal st.heap st.currentScope name <;>
      cases Scope.assign fuel st.heap st.currentScope name v <;> rfl
  | thrown w => rfl
  | outOfFuel => rfl
  | trapped => rfl

theorem execAuto_withErr (invoke : Dispatcher) (e : List String) (fuel : Nat) (f : String)
    (args : List Expr) (st : ASTExecutor) :
    execAuto invoke fuel f args (withErr e st) =
      (execAuto invoke fuel f args st).mapState (withErr e) := by
  simp only [execAuto, withErr]
  cases evalArgs fuel st.heap st.currentScope args with
  | ok vs =>
    simp only
    cases invoke f vs with
    | none => rfl
    | some w => simp [Run.mapState, withErr, List.append_assoc]
  | thrown w => rfl
  | outOfFuel => rfl
  | trapped => rfl

theorem restoreScope_mapState (e : List String) (old : Nat) (r : Run ASTExecutor) :
    restoreScope old (r.mapState (withErr e)) = (restoreScope old r).mapState (withErr e) := by
  cases r <;> rfl

/-- Lines already in the diagnostic stream do not influence a run: they stay
in front of the lines the run adds. -/
theorem exec_withErr (invoke : Dispatcher) (e : List String) :
    ∀ fuel : Nat,
      (∀ stmts st, execBlock invoke fuel stmts (withErr e st) =
        (execBlock invoke fuel stmts st).mapState (withErr e)) ∧
      (∀ stmt st, execStmt invoke fuel stmt (withErr e st) =
        (execStmt invoke fuel stmt st).mapState (withErr e)) ∧
      (∀ body st, execBody invoke fuel body (withErr e st) =
        (execBody invoke fuel body st).mapState (withErr e)) ∧
      (∀ c b eb st, execIf invoke fuel c b eb (withErr e st) =
        (execIf invoke fuel c b eb st).mapState (withErr e)) ∧
      (∀ c b st, execLoop invoke fuel c b (withErr e st) =
        (execLoop invoke fuel c b st).mapState (withErr e)) := by
  intro fuel
  induction fuel with
  | zero =>
    refine ⟨?_, ?_, ?_, ?_, ?_⟩ <;> intros <;>
      simp [execBlock, execStmt, execBody, execIf, execLoop, Run.mapState]
  | succ n ih =>
    obtain ⟨ihBlock, ihStmt, ihBody, ihIf, ihLoop⟩ := ih
    have hpush : ∀ st, pushScope (withErr e st) = withErr e (pushScope st) := fun _ => rfl
    have hcur : ∀ st, (withErr e st).currentScope = st.currentScope := fun _ => rfl
    have hheap : ∀ st, (withErr e st).heap = st.heap := fun _ => rfl
    refine ⟨?_, ?_, ?_, ?_, ?_⟩
    · intro stmts st
      cases stmts with
      | nil => simp [execBlock, Run.mapState]
      | cons item rest =>
        simp only [execBlock, ihStmt]
        cases execStmt invoke n item st with
        | done st1 => simp only [Run.mapState, ihBlock]
        | thrown w s => rfl
        | outOfFuel => rfl
        | trapped => rfl
    · intro stmt st
      cases stmt with
      | IF c b eb => simp only [execStmt, ihIf]
      | LOOP c b => simp only [execStmt, ihLoop]
      | PRINT x => simp only [execStmt, execPrint_withErr]
      | ASSIGNMENT t v => simp only [execStmt, execAssign_withErr]
      | AUTO_CALL f args => simp only [execStmt, execAuto_withErr]
      | BLOCK stmts =>
        simp only [execStmt, hpush, hcur, ihBlock, restoreScope_mapState]
      | OTHER t =>
        simp only [execStmt, hpush]
        repeat' split
        all_goals rfl
    · intro body st
      cases body with
      | BLOCK stmts => simp only [execBody, hpush, hcur, ihBlock, restoreScope_mapState]
      | OTHER t =>
        simp only [execBody, hpush, hcur, ihStmt, restoreScope_mapState]
        split <;> rfl
      | IF c b eb => simp only [execBody, hpush, hcur, ihStmt, restoreScope_mapState]
      | LOOP c b => simp only [execBody, hpush, hcur, ihStmt, restoreScope_mapState]
      | PRINT x => simp only [execBody, hpush, hcur, ihStmt, restoreScope_mapState]
      | ASSIGNMENT t v => simp only [execBody, hpush, hcur, ihStmt, restoreScope_mapState]
      | AUTO_CALL f args => simp only [execBody, hpush, hcur, ihStmt, restoreScope_mapState]
    · intro c b eb st
      simp only [execIf, hcur, hheap]
      cases evalExpr n st.heap st.currentScope c with
      | ok cond =>
        simp only
        by_cases ht : isTrue cond = true
        · simp only [ht, if_true, ihBody]
        · simp only [ht, Bool.false_eq_true, if_false]
          cases eb with
          | none => rfl
          | some x => simp only [ihBody]
      | thrown w => rfl
      | outOfFuel => rfl
      | trapped => rfl
    · intro c b st
      simp only [execLoop, hcur, hheap]
      cases evalExpr n st.heap st.currentScope c with
      | ok cond =>
        simp only
        by_cases ht : isTrue cond = true
        · simp only [ht, if_true, ihBody]
          cases execBody invoke n b st with
          | done st1 => simp only [Run.mapState, ihLoop]
          | thrown w s => rfl
          | outOfFuel => rfl
          | trapped => rfl
        · simp only [ht, Bool.false_eq_true, if_false]
          rfl
      | thrown w => rfl
      | outOfFuel => rfl
      | trapped => rfl

theorem mapState_eraseErr_withErr (e : List String) (r : Run ASTExecutor) :
    (r.mapState (withErr e)).mapState eraseErr = r.mapState eraseErr := by
  cases r <;> rfl

/-- C17: an `AUTO_CALL` whose arguments evaluate and whose dispatcher call
raises returns normally: the call is recorded and a diagnostic line written,
heap, current scope and output are untouched.  The rest of the block runs
from that state, and, the diagnostic lines apart, it runs exactly as from
the state a returning call leaves; a `PRINT` after the failed call writes its
line. -/
theorem C17_auto_call_failure_recovered (invoke : Dispatcher) (f : String)
    (argsAst : List Expr) (args : List Value) (what : String) (rest : List Stmt)
    (st : ASTExecutor) (fuel : Nat)
    (hargs : evalArgs (fuel + 1) st.heap st.currentScope argsAst = .ok args)
    (hfail : invoke f args = some what) :
    execStmt invoke (fuel + 2) (.AUTO_CALL f argsAst) st =
      .done { st with calls := st.calls ++ [(f, args)],
                      err := st.err ++ ["Python Error: " ++ what] } ∧
    execBlock invoke (fuel + 3) (.AUTO_CALL f argsAst :: rest) st =
      execBlock invoke (fuel + 2) rest
        { st with calls := st.calls ++ [(f, args)],
                  err := st.err ++ ["Python Error: " ++ what] } ∧
    (execBlock invoke (fuel + 2) rest
        { st with calls := st.calls ++ [(f, args)],
                  err := st.err ++ ["Python Error: " ++ what] }).mapState eraseErr =
      (execBlock invoke (fuel + 2) rest
        { st with calls := st.calls ++ [(f, args)] }).mapState eraseErr ∧
    (∀ line : String,
      execBlock invoke (fuel + 3) [.AUTO_CALL f argsAst, .PRINT (.STRING line)] st =
        .done { st with calls := st.calls ++ [(f, args)],
                        err := st.err ++ ["Python Error: " ++ what],
                        out := st.out ++ [line] }) := by
  have hstmt : execStmt invoke (fuel + 2) (.AUTO_CALL f argsAst) st =
      .done { st with calls := st.calls ++ [(f, args)],
                      err := st.err ++ ["Python Error: " ++ what] } := by
    simp [execStmt, execAuto, hargs, hfail]
  refine ⟨hstmt, ?_, ?_, ?_⟩
  · simp [execBlock, hstmt]
  · have h1 := (exec_withErr invoke (st.err ++ ["Python Error: " ++ what]) (fuel + 2)).1 rest
      { st with calls := st.calls ++ [(f, args)], err := [] }
    have h2 := (exec_withErr invoke st.err (fuel + 2)).1 rest
      { st with calls := st.calls ++ [(f, args)], err := [] }
    simp only [withErr, List.append_nil] at h1 h2
    rw [h1, h2, mapState_eraseErr_withErr, mapState_eraseErr_withErr]
  · intro line
    have hprint : ∀ s1 : ASTExecutor, execStmt invoke (fuel + 1) (.PRINT (.STRING line)) s1 =
        .done { s1 with out := s1.out ++ [line] } := by
      intro s1
      simp [execStmt, execPrint, evalExpr, IO_print, Value.toString]
    simp only [execBlock, hstmt, hprint]

theorem C17_auto_call_failure_recovered_witness :
    execBlock (fun _ _ => some "no such function") 3
        [.AUTO_CALL "click" [.NUMBER (.fin 1)], .PRINT (.STRING "after")] ASTExecutor.new =
      .done { ASTExecutor.new with
        calls := ASTExecutor.new.calls ++ [("click", [.LONG 1])],
        err := ASTExecutor.new.err ++ ["Python Error: " ++ "no such function"],
        out := ASTExecutor.new.out ++ ["after"] } :=
  (C17_auto_call_failure_recovered (fun _ _ => some "no such function") "click"
    [.NUMBER (.fin 1)] [.LONG 1] "no such function" [] ASTExecutor.new 0
    (by decide) rfl).2.2.2 "after"

end NovoLang
